import Mathlib

/-!
# WebMonner analysis engine: a shallow embedding

This file embeds the core analysis logic of the WebMonner crawler in Lean 4
and proves (or refutes) the testable properties stated in its specification:

* change classification against the per-domain hash store
  (the response handler of `runCrawler`),
* endpoint deduplication, extraction and the candidate validity /
  clean normalization predicates (`EndpointExtractor`),
* the similarity score and the seed-based clustering loop
  (`CodeSimilarityAnalyzer`),
* the batched Discord summary flush with its duplicate-suppression
  signature and rate-limit bookkeeping (`DiscordNotifier`),
* the filename encoding used for the on-disk store
  (`saveJSFile` / `decodeFileName`).

JavaScript strings are modelled as `List Char`, JS objects used as string
maps as association lists, machine integers as `Nat`/`Int` with explicit
wrap-around where the source relies on 32-bit overflow, and fallible steps
as `Option`/`Except`.
-/

namespace WebMonner

/-! ## Change classification (runCrawler response handler)

The handler loads `data/<domain>/hashes.json` into a plain object
(url → sha256 hex), computes `prevHash = hashes[respUrl]`,
`isNewFile = !prevHash`, `hasChanged = !prevHash || prevHash !== hash`,
and when the file changed stores the new hash back under the url.
-/

/-- A per-domain hash store: url → content hash, as read from
`hashes.json`.  A JS object with string keys is modelled as an
association list, the last write winning on lookup. -/
def HashStore := List (String × String)

instance : Inhabited HashStore := ⟨([] : List (String × String))⟩

/-- `hashes[respUrl]` : property lookup, `none` when the key is absent. -/
def HashStore.find (s : HashStore) (url : String) : Option String :=
  match s with
  | [] => none
  | (k, v) :: rest => if k = url then some v else HashStore.find rest url

/-- `hashes[respUrl] = hash` : property write (overwrite or insert). -/
def HashStore.set (s : HashStore) (url hash : String) : HashStore :=
  (url, hash) :: s

/-- JS truthiness of `prevHash`: `!prevHash` is true when the key is
absent (`undefined`) or holds the empty string. -/
def jsFalsy : Option String → Bool
  | none => true
  | some h => h = ""

/-- The classification a response handler invocation produces, plus the
store it leaves behind. -/
structure ClassifyResult where
  isNewFile : Bool
  hasChanged : Bool
  store : HashStore

/-- One response-handler classification step, from `runCrawler`:

```
const prevHash = hashes[respUrl];
const isNewFile = !prevHash;
const hasChanged = !prevHash || prevHash !== hash;
if (hasChanged) { ... hashes[respUrl] = result.hash; ... writeFileSync ... }
```

(`result.hash` is the sha256 of the same buffer, so it equals `hash`.) -/
def classify (hashes : HashStore) (respUrl hash : String) : ClassifyResult :=
  let prevHash := hashes.find respUrl
  let isNewFile := jsFalsy prevHash
  let hasChanged := jsFalsy prevHash || (prevHash ≠ some hash : Bool)
  { isNewFile := isNewFile
    hasChanged := hasChanged
    store := if hasChanged then hashes.set respUrl hash else hashes }

/-- Loading the hash store, from `runCrawler`:

```
let hashes = {};
if (fs.existsSync(hashPath)) {
  try { hashes = JSON.parse(fs.readFileSync(hashPath, 'utf-8')); }
  catch (parseError) { hashes = {}; ... }
}
```

`none` models a missing file, `some (.error e)` a file whose contents
failed to parse, `some (.ok m)` a successful load.  Both failure shapes
fall open to the empty store; no exception escapes. -/
def loadHashes : Option (Except String HashStore) → HashStore
  | none => ([] : List (String × String))
  | some (Except.error _) => ([] : List (String × String))
  | some (Except.ok m) => m

/-- The per-file pipeline step for one captured response: load (or fail
open), then classify and update. -/
def processResponse (raw : Option (Except String HashStore))
    (respUrl hash : String) : ClassifyResult :=
  classify (loadHashes raw) respUrl hash

/-- C1: the first classification of a url (no stored hash) yields
`isNewFile = true`; a repeat observation with the same content hash is
classified unchanged; an observation with a different content hash while
a prior hash exists is classified changed and not new.  The hypothesis
`h ≠ ""` records that a stored hash is a sha256 hex digest, never the
empty string. -/
theorem classify_lifecycle (s : HashStore) (url h h' : String)
    (hfirst : s.find url = none) (hne : h ≠ "") (hdiff : h' ≠ h) :
    (classify s url h).isNewFile = true ∧
    (classify s url h).hasChanged = true ∧
    (classify (classify s url h).store url h).isNewFile = false ∧
    (classify (classify s url h).store url h).hasChanged = false ∧
    (classify (classify s url h).store url h').isNewFile = false ∧
    (classify (classify s url h).store url h').hasChanged = true := by
  have hfind : ((s.set url h).find url) = some h := by
    simp [HashStore.set, HashStore.find]
  constructor
  · simp [classify, hfirst, jsFalsy]
  constructor
  · simp [classify, hfirst, jsFalsy]
  have hstore : (classify s url h).store = s.set url h := by
    simp [classify, hfirst, jsFalsy]
  rw [hstore]
  constructor
  · simp [classify, hfind, jsFalsy, hne]
  constructor
  · simp [classify, hfind, jsFalsy, hne]
  constructor
  · simp [classify, hfind, jsFalsy, hne]
  · simp [classify, hfind, jsFalsy, hne]
    exact fun hh => hdiff hh.symm

/-- Witness for `classify_lifecycle` at a concrete store and hashes. -/
theorem classify_lifecycle_witness :
    (HashStore.find ([] : List (String × String)) "u" = none) ∧
    ("a" : String) ≠ "" ∧ ("b" : String) ≠ "a" ∧
    ((classify ([] : List (String × String)) "u" "a").isNewFile = true ∧
     (classify ([] : List (String × String)) "u" "a").hasChanged = true ∧
     (classify (classify ([] : List (String × String)) "u" "a").store
        "u" "a").isNewFile = false ∧
     (classify (classify ([] : List (String × String)) "u" "a").store
        "u" "a").hasChanged = false ∧
     (classify (classify ([] : List (String × String)) "u" "a").store
        "u" "b").isNewFile = false ∧
     (classify (classify ([] : List (String × String)) "u" "a").store
        "u" "b").hasChanged = true) :=
  ⟨by decide, by decide, by decide,
   classify_lifecycle ([] : List (String × String)) "u" "a" "b"
     (by decide) (by decide) (by decide)⟩

/-- C6: when the hash store is unreadable or fails to parse, the per-file
pipeline proceeds exactly as if no prior record existed: same result as a
missing store, `isNewFile = true`, and the store is overwritten with the
new hash.  `processResponse` is a total function, so no error escapes the
pipeline. -/
theorem processResponse_corrupt_fail_open (e url h : String) :
    processResponse (some (Except.error e)) url h =
      processResponse none url h ∧
    (processResponse (some (Except.error e)) url h).isNewFile = true ∧
    (processResponse (some (Except.error e)) url h).store.find url
      = some h := by
  refine ⟨rfl, ?_, ?_⟩
  · simp [processResponse, loadHashes, classify, HashStore.find, jsFalsy]
  · simp [processResponse, loadHashes, classify, HashStore.find,
      HashStore.set, jsFalsy]

/-! ## EndpointExtractor: deduplication

`deduplicateEndpoints` folds the candidate list into a `Map` keyed by the
exact url string, keeping the higher-confidence record and, on ties,
preferring resolved network-call categories over static patterns.
-/

/-- The confidence bucket of an extracted endpoint
(`this.confidence = { HIGH, MEDIUM, LOW }`). -/
inductive Confidence
  | HIGH
  | MEDIUM
  | LOW
  deriving DecidableEq, Repr

/-- `const confidenceOrder = { HIGH: 3, MEDIUM: 2, LOW: 1 }`. -/
def confidenceOrder : Confidence → Nat
  | Confidence.HIGH => 3
  | Confidence.MEDIUM => 2
  | Confidence.LOW => 1

/-- One candidate endpoint record, as built at the extraction sites. -/
structure Endpoint where
  url : String
  source : String
  method : String
  category : String
  confidence : Confidence
  context : String
  line : Nat
  extractionMethod : String
  deriving DecidableEq, Repr

/-- `['network_call', 'network_call_resolved', 'fetchPatterns']` — the
categories favored on confidence ties. -/
def preferredCategories : List String :=
  ["network_call", "network_call_resolved", "fetchPatterns"]

/-- A JS `Map` with string keys: insertion-ordered association list with
unique keys. -/
abbrev EndpointMap := List (String × Endpoint)

/-- `urlMap.get(key)`. -/
def EndpointMap.get (m : EndpointMap) (k : String) : Option Endpoint :=
  match m with
  | [] => none
  | (k', v) :: rest => if k' = k then some v else EndpointMap.get rest k

/-- `urlMap.set(key, value)`: replaces in place, or appends a new entry. -/
def EndpointMap.set (m : EndpointMap) (k : String) (v : Endpoint) :
    EndpointMap :=
  match m with
  | [] => [(k, v)]
  | (k', v') :: rest =>
      if k' = k then (k, v) :: rest else (k', v') :: EndpointMap.set rest k v

/-- The body of the `endpoints.forEach` in `deduplicateEndpoints`. -/
def dedupStep (urlMap : EndpointMap) (endpoint : Endpoint) : EndpointMap :=
  match urlMap.get endpoint.url with
  | none => urlMap.set endpoint.url endpoint
  | some existing =>
      let existingScore := confidenceOrder existing.confidence
      let newScore := confidenceOrder endpoint.confidence
      if existingScore < newScore then
        urlMap.set endpoint.url endpoint
      else if newScore = existingScore then
        if endpoint.category ∈ preferredCategories ∧
            existing.category ∉ preferredCategories then
          urlMap.set endpoint.url endpoint
        else urlMap
      else urlMap

/-- `deduplicateEndpoints`: fold the list through the url-keyed map and
return `Array.from(urlMap.values())`. -/
def deduplicateEndpoints (endpoints : List Endpoint) : List Endpoint :=
  (endpoints.foldl dedupStep ([] : List (String × Endpoint))).map Prod.snd

lemma EndpointMap.get_set_self (m : EndpointMap) (k : String) (v : Endpoint) :
    (m.set k v).get k = some v := by
  induction m with
  | nil => simp [EndpointMap.set, EndpointMap.get]
  | cons p rest ih =>
      by_cases h : p.1 = k
      · simp [EndpointMap.set, EndpointMap.get, h]
      · simp [EndpointMap.set, EndpointMap.get, h, ih]

lemma EndpointMap.get_set_ne (m : EndpointMap) (k k' : String) (v : Endpoint)
    (h : k' ≠ k) : (m.set k v).get k' = m.get k' := by
  have h' : k ≠ k' := fun hh => h hh.symm
  induction m with
  | nil => simp [EndpointMap.set, EndpointMap.get, h']
  | cons p rest ih =>
      by_cases hp : p.1 = k
      · have hq : p.1 ≠ k' := by rw [hp]; exact h'
        simp [EndpointMap.set, EndpointMap.get, hp, h, h', hq]
      · by_cases hq : p.1 = k'
        · simp [EndpointMap.set, EndpointMap.get, hp, hq, h, h']
        · simp [EndpointMap.set, EndpointMap.get, hp, hq, ih]

lemma EndpointMap.keys_set_subset (m : EndpointMap) (k : String)
    (v : Endpoint) :
    ∀ x ∈ (m.set k v).map Prod.fst, x = k ∨ x ∈ m.map Prod.fst := by
  induction m with
  | nil => simp [EndpointMap.set]
  | cons p rest ih =>
      by_cases hp : p.1 = k
      · intro x hx
        rw [EndpointMap.set, if_pos hp] at hx
        simp only [List.map_cons, List.mem_cons] at hx ⊢
        rcases hx with h | h
        · exact Or.inl h
        · exact Or.inr (Or.inr h)
      · intro x hx
        rw [EndpointMap.set, if_neg hp] at hx
        simp only [List.map_cons, List.mem_cons] at hx ⊢
        rcases hx with h | h
        · exact Or.inr (Or.inl h)
        · rcases ih x h with h' | h'
          · exact Or.inl h'
          · exact Or.inr (Or.inr h')

lemma EndpointMap.keys_set_nodup (m : EndpointMap) (k : String) (v : Endpoint)
    (h : (m.map Prod.fst).Nodup) : ((m.set k v).map Prod.fst).Nodup := by
  induction m with
  | nil => simp [EndpointMap.set]
  | cons p rest ih =>
      rw [List.map_cons, List.nodup_cons] at h
      by_cases hp : p.1 = k
      · rw [EndpointMap.set, if_pos hp, List.map_cons, List.nodup_cons]
        exact ⟨hp ▸ h.1, h.2⟩
      · rw [EndpointMap.set, if_neg hp, List.map_cons, List.nodup_cons]
        refine ⟨?_, ih h.2⟩
        intro hmem
        rcases EndpointMap.keys_set_subset rest k v p.1 hmem with h' | h'
        · exact hp h'
        · exact h.1 h'

lemma EndpointMap.urls_set (m : EndpointMap) (k : String) (v : Endpoint)
    (hm : ∀ p ∈ m, (p.2).url = p.1) (hv : v.url = k) :
    ∀ p ∈ m.set k v, (p.2).url = p.1 := by
  induction m with
  | nil =>
      intro p hp
      rw [EndpointMap.set] at hp
      rcases List.mem_singleton.1 hp with h
      subst h; exact hv
  | cons q rest ih =>
      by_cases hq : q.1 = k
      · intro p hp
        rw [EndpointMap.set, if_pos hq] at hp
        rcases List.mem_cons.1 hp with h | h
        · subst h; exact hv
        · exact hm p (List.mem_cons_of_mem _ h)
      · intro p hp
        rw [EndpointMap.set, if_neg hq] at hp
        rcases List.mem_cons.1 hp with h | h
        · subst h; exact hm q (List.mem_cons_self _ _)
        · exact ih (fun r hr => hm r (List.mem_cons_of_mem _ hr)) p h

lemma EndpointMap.get_of_mem (m : EndpointMap)
    (hnd : (m.map Prod.fst).Nodup) :
    ∀ p ∈ m, m.get p.1 = some p.2 := by
  induction m with
  | nil => simp
  | cons q rest ih =>
      rw [List.map_cons, List.nodup_cons] at hnd
      intro p hp
      rcases List.mem_cons.1 hp with h | h
      · subst h; simp [EndpointMap.get]
      · have hne : q.1 ≠ p.1 := by
          intro hh
          exact hnd.1 (hh ▸ List.mem_map_of_mem Prod.fst h)
        rw [EndpointMap.get, if_neg hne]
        exact ih hnd.2 p h

/-- Invariant of the dedup fold: keys are unique, each value records its
own key as url, and every already-processed candidate is dominated by
the entry at its url (weakly smaller confidence score, and on equal
scores a preferred-category candidate forces a preferred-category
survivor). -/
def DedupInv (seen : List Endpoint) (m : EndpointMap) : Prop :=
  (m.map Prod.fst).Nodup ∧ (∀ p ∈ m, (p.2).url = p.1) ∧
  ∀ c ∈ seen, ∃ v, m.get c.url = some v ∧
    confidenceOrder c.confidence ≤ confidenceOrder v.confidence ∧
    (confidenceOrder c.confidence = confidenceOrder v.confidence →
      c.category ∈ preferredCategories → v.category ∈ preferredCategories)

lemma dedupStep_inv (seen : List Endpoint) (m : EndpointMap) (e : Endpoint)
    (h : DedupInv seen m) : DedupInv (seen ++ [e]) (dedupStep m e) := by
  obtain ⟨hnd, hurl, hdom⟩ := h
  have hset_dom : ∀ c ∈ seen, c.url ≠ e.url →
      ∀ v', ∃ v, (m.set e.url v').get c.url = some v ∧
        confidenceOrder c.confidence ≤ confidenceOrder v.confidence ∧
        (confidenceOrder c.confidence = confidenceOrder v.confidence →
          c.category ∈ preferredCategories →
          v.category ∈ preferredCategories) := by
    intro c hc hne v'
    obtain ⟨v, hv, hle, hpref⟩ := hdom c hc
    exact ⟨v, by rw [EndpointMap.get_set_ne m e.url c.url v' hne]; exact hv,
      hle, hpref⟩
  unfold dedupStep
  cases hget : m.get e.url with
  | none =>
      refine ⟨EndpointMap.keys_set_nodup m e.url e hnd,
        EndpointMap.urls_set m e.url e hurl rfl, ?_⟩
      intro c hc
      rcases List.mem_append.1 hc with hc | hc
      · by_cases hne : c.url = e.url
        · obtain ⟨v, hv, _⟩ := hdom c hc
          rw [hne, hget] at hv
          exact absurd hv (by simp)
        · exact hset_dom c hc hne e
      · have : c = e := by simpa using hc
        subst this
        exact ⟨c, EndpointMap.get_set_self m c.url c, le_refl _,
          fun _ hp => hp⟩
  | some existing =>
      have hex_entry : m.get e.url = some existing := hget
      by_cases hlt :
          confidenceOrder existing.confidence < confidenceOrder e.confidence
      · simp only [if_pos hlt]
        refine ⟨EndpointMap.keys_set_nodup m e.url e hnd,
          EndpointMap.urls_set m e.url e hurl rfl, ?_⟩
        intro c hc
        rcases List.mem_append.1 hc with hc | hc
        · by_cases hne : c.url = e.url
          · obtain ⟨v, hv, hle, _⟩ := hdom c hc
            rw [hne, hex_entry] at hv
            have hv' : v = existing := by
              injection hv with hh; exact hh.symm
            subst hv'
            refine ⟨e, by rw [hne]; exact EndpointMap.get_set_self m e.url e,
              le_of_lt (lt_of_le_of_lt hle hlt), ?_⟩
            intro heq
            exact absurd heq (by omega)
          · exact hset_dom c hc hne e
        · have : c = e := by simpa using hc
          subst this
          exact ⟨c, EndpointMap.get_set_self m c.url c, le_refl _,
            fun _ hp => hp⟩
      · by_cases heq :
            confidenceOrder e.confidence = confidenceOrder existing.confidence
        · by_cases hpref : e.category ∈ preferredCategories ∧
              existing.category ∉ preferredCategories
          · simp only [if_neg hlt, if_pos heq, if_pos hpref]
            refine ⟨EndpointMap.keys_set_nodup m e.url e hnd,
              EndpointMap.urls_set m e.url e hurl rfl, ?_⟩
            intro c hc
            rcases List.mem_append.1 hc with hc | hc
            · by_cases hne : c.url = e.url
              · obtain ⟨v, hv, hle, _⟩ := hdom c hc
                rw [hne, hex_entry] at hv
                have hv' : v = existing := by
                  injection hv with hh; exact hh.symm
                subst hv'
                refine ⟨e,
                  by rw [hne]; exact EndpointMap.get_set_self m e.url e,
                  by omega, fun _ _ => hpref.1⟩
              · exact hset_dom c hc hne e
            · have : c = e := by simpa using hc
              subst this
              exact ⟨c, EndpointMap.get_set_self m c.url c, le_refl _,
                fun _ hp => hp⟩
          · simp only [if_neg hlt, if_pos heq, if_neg hpref]
            refine ⟨hnd, hurl, ?_⟩
            intro c hc
            rcases List.mem_append.1 hc with hc | hc
            · exact hdom c hc
            · have : c = e := by simpa using hc
              subst this
              refine ⟨existing, hex_entry, le_of_eq heq, fun _ hp => ?_⟩
              rcases Classical.em
                  (existing.category ∈ preferredCategories) with h' | h'
              · exact h'
              · exact absurd ⟨hp, h'⟩ hpref
        · simp only [if_neg hlt, if_neg heq]
          refine ⟨hnd, hurl, ?_⟩
          intro c hc
          rcases List.mem_append.1 hc with hc | hc
          · exact hdom c hc
          · have : c = e := by simpa using hc
            subst this
            refine ⟨existing, hex_entry, by omega, fun h' => absurd h' heq⟩

lemma dedup_fold_inv (l : List Endpoint) :
    ∀ (seen : List Endpoint) (m : EndpointMap), DedupInv seen m →
      DedupInv (seen ++ l) (l.foldl dedupStep m) := by
  induction l with
  | nil => intro seen m h; simpa using h
  | cons e rest ih =>
      intro seen m h
      have h1 := dedupStep_inv seen m e h
      have h2 := ih (seen ++ [e]) (dedupStep m e) h1
      simpa using h2

/-- C2: deduplication keeps at most one `Endpoint` per exact url string
(two survivors with the same url are equal); the survivor's confidence
score dominates every input candidate with that url; and when an input
candidate with the survivor's url ties the survivor's confidence and has
a preferred (resolved network-call) category, the survivor's category is
preferred too. -/
theorem deduplicateEndpoints_spec (l : List Endpoint) (s₁ s₂ c : Endpoint)
    (hs₁ : s₁ ∈ deduplicateEndpoints l) (hs₂ : s₂ ∈ deduplicateEndpoints l)
    (hc : c ∈ l) :
    (s₁.url = s₂.url → s₁ = s₂) ∧
    (c.url = s₁.url →
      confidenceOrder c.confidence ≤ confidenceOrder s₁.confidence ∧
      (confidenceOrder c.confidence = confidenceOrder s₁.confidence →
        c.category ∈ preferredCategories →
        s₁.category ∈ preferredCategories)) := by
  have hinv : DedupInv l (l.foldl dedupStep ([] : List (String × Endpoint))) := by
    have := dedup_fold_inv l [] ([] : List (String × Endpoint))
      ⟨by simp, by simp, by simp⟩
    simpa using this
  obtain ⟨hnd, hurl, hdom⟩ := hinv
  set m := l.foldl dedupStep ([] : List (String × Endpoint)) with hm
  have hget : ∀ s, s ∈ deduplicateEndpoints l → m.get s.url = some s := by
    intro s hs
    obtain ⟨p, hp, hps⟩ := List.mem_map.1 hs
    have hkey : (p.2).url = p.1 := hurl p hp
    have := EndpointMap.get_of_mem m hnd p hp
    rw [← hps, hkey]
    exact this
  constructor
  · intro hu
    have h1 := hget s₁ hs₁
    have h2 := hget s₂ hs₂
    rw [hu, h2] at h1
    injection h1 with h1
    exact h1.symm
  · intro hu
    obtain ⟨v, hv, hle, hpref⟩ := hdom c hc
    rw [hu, hget s₁ hs₁] at hv
    have hv' : v = s₁ := by injection hv with hh; exact hh.symm
    subst hv'
    exact ⟨hle, hpref⟩

/-- Witness for `deduplicateEndpoints_spec` on a two-candidate list
sharing one url: a LOW static literal and a HIGH resolved network call. -/
theorem deduplicateEndpoints_spec_witness :
    let a : Endpoint := ⟨"/api/users", "f.js", "UNKNOWN", "ast_literal",
      Confidence.LOW, "", 1, "ast"⟩
    let b : Endpoint := ⟨"/api/users", "f.js", "GET", "network_call_resolved",
      Confidence.HIGH, "", 2, "ast"⟩
    (b ∈ deduplicateEndpoints [a, b] → b ∈ deduplicateEndpoints [a, b] →
      a ∈ [a, b] →
      ((b.url = b.url → b = b) ∧
       (a.url = b.url →
        confidenceOrder a.confidence ≤ confidenceOrder b.confidence ∧
        (confidenceOrder a.confidence = confidenceOrder b.confidence →
          a.category ∈ preferredCategories →
          b.category ∈ preferredCategories)))) ∧
    b ∈ deduplicateEndpoints [⟨"/api/users", "f.js", "UNKNOWN", "ast_literal",
      Confidence.LOW, "", 1, "ast"⟩, b] ∧
    (⟨"/api/users", "f.js", "UNKNOWN", "ast_literal",
      Confidence.LOW, "", 1, "ast"⟩ : Endpoint) ∈
      [(⟨"/api/users", "f.js", "UNKNOWN", "ast_literal",
        Confidence.LOW, "", 1, "ast"⟩ : Endpoint), b] := by
  refine ⟨fun h1 h2 h3 => deduplicateEndpoints_spec _ _ _ _ h1 h2 h3, ?_, ?_⟩
  · decide
  · decide

/-! ## DiscordNotifier: batched summary flush

`sendBatchedSummary` is modelled as a pure transition on the notifier
state.  `Date.now()` is passed in as `now`; the outcome the transport
*would* produce if called is passed in as `resp`, and the returned
`FlushAction` records whether the delivery call was actually made.
-/

/-- `new_file` batch item (`discordNotifier.addToBatch('new_file', …)`). -/
structure NewFileData where
  url : String
  domain : String
  fileSize : String
  lines : Nat
  deriving DecidableEq, Repr

/-- `file_changed` batch item. -/
structure ChangedFileData where
  url : String
  domain : String
  addedLines : Nat
  removedLines : Nat
  fileSize : String
  totalLines : Nat
  newCodeSections : Nat
  deriving DecidableEq, Repr

/-- `error` batch item. -/
structure ErrorData where
  url : String
  domain : String
  type : String
  message : String
  deriving DecidableEq, Repr

/-- `endpoints_found` batch item. -/
structure EndpointsFoundData where
  url : String
  domain : String
  totalEndpoints : Nat
  newEndpoints : Nat
  highConfidence : Nat
  mediumConfidence : Nat
  lowConfidence : Nat
  deriving DecidableEq, Repr

/-- `this.batchedChanges`. -/
structure BatchedChanges where
  newFiles : List NewFileData
  changedFiles : List ChangedFileData
  errors : List ErrorData
  endpointsFound : List EndpointsFoundData
  deriving DecidableEq, Repr

/-- The cleared batch (`clearBatch`). -/
def emptyBatch : BatchedChanges :=
  { newFiles := [], changedFiles := [], errors := [], endpointsFound := [] }

/-- A queued notification (`this.pendingNotifications` entry). -/
structure PendingNotification where
  type : String
  url : String
  key : String
  timestamp : Int
  deriving DecidableEq, Repr

/-- The `DiscordNotifier` instance state. -/
structure DiscordNotifier where
  enabled : Bool
  sentNotifications : List (String × Int)
  rateLimitReset : Int
  pendingNotifications : List PendingNotification
  batchedChanges : BatchedChanges
  lastSummarySignature : Option String
  lastSummaryTime : Int
  deriving DecidableEq, Repr

/-- `this.summaryMinInterval = 300000` (5 minutes, in ms). -/
def summaryMinInterval : Int := 300000

/-- Wrap an integer to signed 32 bits, as `x & x` does in JS. -/
def wrap32 (x : Int) : Int := (x + 2 ^ 31) % 2 ^ 32 - 2 ^ 31

/-- `simpleHash`: `hash = ((hash << 5) - hash) + charCode; hash &= hash`,
i.e. `hash := wrap32 (31 * hash + charCode)`, finishing with
`toString`.  Character codes are UTF-16 code units; for the BMP
characters appearing in signatures this is `Char.toNat`. -/
def simpleHash (str : String) : String :=
  toString (str.data.foldl (fun hash c => wrap32 (31 * hash + c.toNat)) 0)

/-- `createSummarySignature`: deterministic content signature over the
batch's semantic fields, joined with `|` and hashed. -/
def createSummarySignature (newFiles : List NewFileData)
    (changedFiles : List ChangedFileData) (errors : List ErrorData)
    (endpointsFound : List EndpointsFoundData) : String :=
  let parts : List String :=
    (("new:" ++ toString newFiles.length) ::
      newFiles.map (fun file =>
        "nf:" ++ file.url ++ ":" ++ toString file.lines)) ++
    (("changed:" ++ toString changedFiles.length) ::
      changedFiles.map (fun file =>
        "cf:" ++ file.url ++ ":" ++ toString file.addedLines ++ ":" ++
          toString file.removedLines)) ++
    (("errors:" ++ toString errors.length) ::
      errors.map (fun error =>
        "err:" ++ error.url ++ ":" ++ error.type)) ++
    (("endpoints:" ++ toString endpointsFound.length) ::
      endpointsFound.map (fun ep =>
        "ep:" ++ ep.url ++ ":" ++ toString ep.newEndpoints ++ ":" ++
          toString ep.highConfidence ++ ":" ++ toString ep.mediumConfidence
          ++ ":" ++ toString ep.lowConfidence))
  simpleHash (String.intercalate "|" parts)

/-- What the transport would answer if the webhook were called. -/
inductive DeliveryResponse
  | ok
  | rateLimited (retryAfter : Int)
  | failed (status : Nat)
  | networkError (msg : String)
  deriving DecidableEq, Repr

/-- Whether `sendBatchedSummary` performed the delivery (`fetch`) call,
and on which path it returned otherwise. -/
inductive FlushAction
  | disabled
  | skippedEmpty
  | skippedDuplicate
  | called (resp : DeliveryResponse)
  deriving DecidableEq, Repr

/-- `true` exactly when the webhook `fetch` was invoked. -/
def deliveryCallMade : FlushAction → Bool
  | FlushAction.called _ => true
  | _ => false

/-- `clearBatch()`. -/
def clearBatch (st : DiscordNotifier) : DiscordNotifier :=
  { st with batchedChanges := emptyBatch }

/-- `isRateLimited()`: `Date.now() < this.rateLimitReset`. -/
def isRateLimited (st : DiscordNotifier) (now : Int) : Bool :=
  now < st.rateLimitReset

/-- `sendBatchedSummary()`, as a pure transition.  Note the source never
consults `isRateLimited` on this path; the 429 answer only *sets*
`rateLimitReset` for later. -/
def sendBatchedSummary (st : DiscordNotifier) (now : Int)
    (resp : DeliveryResponse) : FlushAction × DiscordNotifier :=
  if !st.enabled then (FlushAction.disabled, st)
  else
    let newFiles := st.batchedChanges.newFiles
    let changedFiles := st.batchedChanges.changedFiles
    let errors := st.batchedChanges.errors
    let endpointsFound := st.batchedChanges.endpointsFound
    let totalChanges := newFiles.length + changedFiles.length
    let totalEndpoints := (endpointsFound.map EndpointsFoundData.newEndpoints).sum
    if totalChanges = 0 ∧ errors.length = 0 ∧ totalEndpoints = 0 then
      (FlushAction.skippedEmpty, clearBatch st)
    else
      let summarySignature :=
        createSummarySignature newFiles changedFiles errors endpointsFound
      let currentTime := now
      if st.lastSummarySignature = some summarySignature ∧
          currentTime - st.lastSummaryTime < summaryMinInterval then
        (FlushAction.skippedDuplicate, clearBatch st)
      else
        match resp with
        | DeliveryResponse.ok =>
            (FlushAction.called DeliveryResponse.ok,
              clearBatch { st with
                lastSummarySignature := some summarySignature,
                lastSummaryTime := currentTime })
        | DeliveryResponse.rateLimited retryAfter =>
            (FlushAction.called (DeliveryResponse.rateLimited retryAfter),
              clearBatch { st with
                rateLimitReset := now + retryAfter * 1000 })
        | DeliveryResponse.failed s =>
            (FlushAction.called (DeliveryResponse.failed s), clearBatch st)
        | DeliveryResponse.networkError m =>
            (FlushAction.called (DeliveryResponse.networkError m),
              clearBatch st)

/-- C4: when the batch's content signature equals the last successfully
sent signature and less than `summaryMinInterval` (300000 ms) has
elapsed, the flush makes no delivery call and clears the batch. -/
theorem sendBatchedSummary_suppresses_duplicate (st : DiscordNotifier)
    (now : Int) (resp : DeliveryResponse)
    (hen : st.enabled = true)
    (hsig : st.lastSummarySignature =
      some (createSummarySignature st.batchedChanges.newFiles
        st.batchedChanges.changedFiles st.batchedChanges.errors
        st.batchedChanges.endpointsFound))
    (hint : now - st.lastSummaryTime < summaryMinInterval) :
    deliveryCallMade (sendBatchedSummary st now resp).1 = false ∧
    (sendBatchedSummary st now resp).2.batchedChanges = emptyBatch := by
  unfold sendBatchedSummary
  simp only [hen, Bool.not_true, Bool.false_eq_true, if_false]
  split
  · simp [deliveryCallMade, clearBatch]
  · rw [if_pos ⟨hsig, hint⟩]
    simp [deliveryCallMade, clearBatch]

/-- Witness for `sendBatchedSummary_suppresses_duplicate`: a concrete
notifier whose last sent signature matches its current batch, flushed
one minute later. -/
theorem sendBatchedSummary_suppresses_duplicate_witness :
    let batch : BatchedChanges :=
      { newFiles := [⟨"https://x.test/app.js", "x.test", "1 KB", 40⟩],
        changedFiles := [], errors := [], endpointsFound := [] }
    let st : DiscordNotifier :=
      { enabled := true, sentNotifications := [], rateLimitReset := 0,
        pendingNotifications := [], batchedChanges := batch,
        lastSummarySignature := some (createSummarySignature
          batch.newFiles batch.changedFiles batch.errors
          batch.endpointsFound),
        lastSummaryTime := 0 }
    (st.enabled = true) ∧
    (st.lastSummarySignature =
      some (createSummarySignature st.batchedChanges.newFiles
        st.batchedChanges.changedFiles st.batchedChanges.errors
        st.batchedChanges.endpointsFound)) ∧
    ((60000 : Int) - st.lastSummaryTime < summaryMinInterval) ∧
    (deliveryCallMade
        (sendBatchedSummary st 60000 DeliveryResponse.ok).1 = false ∧
      (sendBatchedSummary st 60000 DeliveryResponse.ok).2.batchedChanges
        = emptyBatch) := by
  refine ⟨rfl, rfl, by decide, ?_⟩
  exact sendBatchedSummary_suppresses_duplicate _ 60000 DeliveryResponse.ok
    rfl rfl (by decide)

/-! ## DiscordNotifier: immediate sends and the rate-limit deadline

`sendNotification` (the immediate path) checks `isRateLimited()` and
queues instead of sending; `sendBatchedSummary` never consults it.
-/

/-- The payload passed with a notification type. -/
inductive NotificationData
  | newFile (d : NewFileData)
  | changedFile (d : ChangedFileData)
  | error (d : ErrorData)
  | endpointsFound (d : EndpointsFoundData)
  | other (url : String)
  deriving DecidableEq, Repr

/-- `data.url`. -/
def NotificationData.url : NotificationData → String
  | NotificationData.newFile d => d.url
  | NotificationData.changedFile d => d.url
  | NotificationData.error d => d.url
  | NotificationData.endpointsFound d => d.url
  | NotificationData.other u => u

/-- `addToBatch(type, data)`: push the payload onto the matching buffer
(no-op when disabled or when type and payload shape disagree, which the
callers never do). -/
def addToBatch (st : DiscordNotifier) (type : String)
    (data : NotificationData) : DiscordNotifier :=
  if !st.enabled then st
  else if type = "new_file" then
    match data with
    | NotificationData.newFile d =>
        { st with batchedChanges := { st.batchedChanges with
            newFiles := st.batchedChanges.newFiles ++ [d] } }
    | _ => st
  else if type = "file_changed" then
    match data with
    | NotificationData.changedFile d =>
        { st with batchedChanges := { st.batchedChanges with
            changedFiles := st.batchedChanges.changedFiles ++ [d] } }
    | _ => st
  else if type = "error" then
    match data with
    | NotificationData.error d =>
        { st with batchedChanges := { st.batchedChanges with
            errors := st.batchedChanges.errors ++ [d] } }
    | _ => st
  else if type = "endpoints_found" then
    match data with
    | NotificationData.endpointsFound d =>
        { st with batchedChanges := { st.batchedChanges with
            endpointsFound := st.batchedChanges.endpointsFound ++ [d] } }
    | _ => st
  else st

/-- `createNotificationKey(type, data)`. -/
def createNotificationKey (type : String) (data : NotificationData)
    (now : Int) : String :=
  if type = "file_changed" ∨ type = "new_file" then
    type ++ ":" ++ data.url
  else type ++ ":" ++ toString now

/-- Association lookup in `this.sentNotifications`. -/
def sentLookup : List (String × Int) → String → Option Int
  | [], _ => none
  | (k, v) :: rest, key => if k = key then some v else sentLookup rest key

/-- `shouldSkipNotification(type, key)`. -/
def shouldSkipNotification (st : DiscordNotifier) (type key : String)
    (now : Int) : Bool :=
  if type = "file_changed" ∨ type = "new_file" then
    match sentLookup st.sentNotifications key with
    | some lastSent => now - lastSent < 300000
    | none => false
  else false

/-- `queueNotification(type, data, key)`: append, then drop entries older
than one hour. -/
def queueNotification (st : DiscordNotifier) (type : String)
    (data : NotificationData) (key : String) (now : Int) :
    DiscordNotifier :=
  let oneHourAgo := now - 3600000
  let appended := st.pendingNotifications ++
    [{ type := type, url := data.url, key := key, timestamp := now }]
  let kept := appended.filter (fun n => oneHourAgo < n.timestamp)
  { st with pendingNotifications := kept }

/-- The path an immediate `sendNotification` call took. -/
inductive SendAction
  | disabled
  | batched
  | skippedDuplicate
  | queuedRateLimited
  | called (resp : DeliveryResponse)
  deriving DecidableEq, Repr

/-- `true` exactly when the webhook `fetch` was invoked. -/
def sendCallMade : SendAction → Bool
  | SendAction.called _ => true
  | _ => false

/-- `markNotificationSent(type, key)`. -/
def markNotificationSent (st : DiscordNotifier) (type key : String)
    (now : Int) : DiscordNotifier :=
  if type = "file_changed" ∨ type = "new_file" then
    let oneHourAgo := now - 3600000
    let kept := ((key, now) :: st.sentNotifications).filter
      (fun p => ¬ p.2 < oneHourAgo)
    { st with sentNotifications := kept }
  else st

/-- `sendNotification(type, data)` as a pure transition. -/
def sendNotification (st : DiscordNotifier) (type : String)
    (data : NotificationData) (now : Int) (resp : DeliveryResponse) :
    SendAction × DiscordNotifier :=
  if !st.enabled then (SendAction.disabled, st)
  else if type = "new_file" ∨ type = "file_changed" ∨ type = "error" ∨
      type = "endpoints_found" then
    (SendAction.batched, addToBatch st type data)
  else
    let notificationKey := createNotificationKey type data now
    if shouldSkipNotification st type notificationKey now then
      (SendAction.skippedDuplicate, st)
    else if isRateLimited st now then
      (SendAction.queuedRateLimited,
        queueNotification st type data notificationKey now)
    else
      match resp with
      | DeliveryResponse.ok =>
          (SendAction.called DeliveryResponse.ok,
            markNotificationSent st type notificationKey now)
      | DeliveryResponse.rateLimited retryAfter =>
          (SendAction.called (DeliveryResponse.rateLimited retryAfter),
            queueNotification
              { st with rateLimitReset := now + retryAfter * 1000 }
              type data notificationKey now)
      | DeliveryResponse.failed s =>
          (SendAction.called (DeliveryResponse.failed s), st)
      | DeliveryResponse.networkError m =>
          (SendAction.called (DeliveryResponse.networkError m), st)

/-- C5 counterexample: a flush of a non-empty batch performed strictly
before the recorded rate-limit deadline *does* make the delivery call
and requeues nothing — `sendBatchedSummary` never consults
`isRateLimited`. -/
theorem sendBatchedSummary_ignores_rateLimit_cex :
    let st : DiscordNotifier :=
      { enabled := true, sentNotifications := [], rateLimitReset := 1000000,
        pendingNotifications := [],
        batchedChanges :=
          ⟨[⟨"https://x.test/app.js", "x.test", "1 KB", 40⟩], [], [], []⟩,
        lastSummarySignature := none, lastSummaryTime := 0 }
    isRateLimited st 0 = true ∧
    deliveryCallMade (sendBatchedSummary st 0 DeliveryResponse.ok).1 = true ∧
    (sendBatchedSummary st 0 DeliveryResponse.ok).2.pendingNotifications
      = [] := by
  refine ⟨by decide, ?_, ?_⟩ <;> rfl

/-- C5 amended: the rate-limit deadline is respected on the immediate
send path.  A `sendNotification` call for a non-batched type made while
`now < rateLimitReset` performs no delivery call and requeues the
notification onto `pendingNotifications`. -/
theorem sendNotification_respects_rateLimit (st : DiscordNotifier)
    (type : String) (data : NotificationData) (now : Int)
    (resp : DeliveryResponse)
    (hen : st.enabled = true)
    (hnb : ¬ (type = "new_file" ∨ type = "file_changed" ∨ type = "error" ∨
      type = "endpoints_found"))
    (hrl : isRateLimited st now = true) :
    sendCallMade (sendNotification st type data now resp).1 = false ∧
    (sendNotification st type data now resp).1
      = SendAction.queuedRateLimited ∧
    (⟨type, data.url, createNotificationKey type data now, now⟩ :
        PendingNotification) ∈
      (sendNotification st type data now resp).2.pendingNotifications := by
  have hskip : shouldSkipNotification st type
      (createNotificationKey type data now) now = false := by
    unfold shouldSkipNotification
    have h1 : ¬ (type = "file_changed" ∨ type = "new_file") := by
      intro h
      rcases h with h | h
      · exact hnb (Or.inr (Or.inl h))
      · exact hnb (Or.inl h)
    simp [h1]
  have hred : sendNotification st type data now resp =
      (SendAction.queuedRateLimited,
        queueNotification st type data
          (createNotificationKey type data now) now) := by
    unfold sendNotification
    rw [hen]
    simp only [Bool.not_true, Bool.false_eq_true, if_false, if_neg hnb]
    rw [if_neg (by simp [hskip]), if_pos (by simp [hrl])]
  rw [hred]
  refine ⟨rfl, rfl, ?_⟩
  unfold queueNotification
  rw [List.mem_filter]
  refine ⟨by simp, ?_⟩
  simp only [decide_eq_true_eq]
  omega

/-- Witness for `sendNotification_respects_rateLimit`: a concrete
rate-limited notifier and a non-batched notification type. -/
theorem sendNotification_respects_rateLimit_witness :
    let st : DiscordNotifier :=
      { enabled := true, sentNotifications := [], rateLimitReset := 500000,
        pendingNotifications := [], batchedChanges := emptyBatch,
        lastSummarySignature := none, lastSummaryTime := 0 }
    let data := NotificationData.other "https://x.test/app.js"
    (st.enabled = true) ∧
    (¬ (("status" : String) = "new_file" ∨ ("status" : String) = "file_changed"
      ∨ ("status" : String) = "error" ∨ ("status" : String) = "endpoints_found")) ∧
    (isRateLimited st 1000 = true) ∧
    (sendCallMade
        (sendNotification st "status" data 1000 DeliveryResponse.ok).1
        = false ∧
      (sendNotification st "status" data 1000 DeliveryResponse.ok).1
        = SendAction.queuedRateLimited ∧
      (⟨"status", data.url, createNotificationKey "status" data 1000, 1000⟩ :
          PendingNotification) ∈
        (sendNotification st "status" data 1000 DeliveryResponse.ok).2.pendingNotifications) := by
  refine ⟨rfl, by decide, by decide, ?_⟩
  exact sendNotification_respects_rateLimit _ "status" _ 1000
    DeliveryResponse.ok rfl (by decide) (by decide)

/-! ## CodeSimilarityAnalyzer: similarity score

`calculateSimilarity` compares two fingerprints.  JS number arithmetic
on these small ratios is modelled in `ℚ`; the weights are
`functionSignatureWeight = 0.4`, `importExportWeight = 0.3`,
`contentHashWeight = 0.3`.  Fingerprints come from
`createCodeFingerprint`, which builds its lists from `Set`s, so they
hold no duplicates.
-/

/-- A code fingerprint (`createCodeFingerprint`). -/
structure Fingerprint where
  functionSignatures : List String
  importExports : List String
  contentHash : String
  signatureCount : Nat
  importExportCount : Nat
  codeLength : Nat
  deriving DecidableEq, Repr

/-- `functionSignatureWeight = 0.4`. -/
def functionSignatureWeight : ℚ := 2 / 5

/-- `importExportWeight = 0.3`. -/
def importExportWeight : ℚ := 3 / 10

/-- `contentHashWeight = 0.3`. -/
def contentHashWeight : ℚ := 3 / 10

/-- The record `calculateSimilarity` returns (details flattened). -/
structure SimilarityResult where
  overall : ℚ
  signatures : ℚ
  importExports : ℚ
  content : ℚ
  commonSignatures : Nat
  totalSignatures : Nat
  commonImportExports : Nat
  totalImportExports : Nat
  deriving DecidableEq, Repr

/-- `calculateSimilarity(fingerprint1, fingerprint2)`:
`0.4 × Jaccard(signatures) + 0.3 × Jaccard(imports/exports) + 0.3 ×
(1 if content hashes equal else 0)`.  `filter/includes` computes the
intersection count, `new Set([...a, ...b]).size` the union count. -/
def calculateSimilarity (fingerprint1 fingerprint2 : Fingerprint) :
    SimilarityResult :=
  let commonSignatures := fingerprint1.functionSignatures.filter
    (fun sig => fingerprint2.functionSignatures.contains sig)
  let totalSignatures := (fingerprint1.functionSignatures ++
    fingerprint2.functionSignatures).dedup.length
  let signatureSimilarity : ℚ :=
    if 0 < totalSignatures then
      (commonSignatures.length : ℚ) / (totalSignatures : ℚ)
    else 0
  let commonImportExports := fingerprint1.importExports.filter
    (fun ie => fingerprint2.importExports.contains ie)
  let totalImportExports := (fingerprint1.importExports ++
    fingerprint2.importExports).dedup.length
  let importExportSimilarity : ℚ :=
    if 0 < totalImportExports then
      (commonImportExports.length : ℚ) / (totalImportExports : ℚ)
    else 0
  let contentSimilarity : ℚ :=
    if fingerprint1.contentHash = fingerprint2.contentHash then 1 else 0
  let similarity :=
    signatureSimilarity * functionSignatureWeight +
    importExportSimilarity * importExportWeight +
    contentSimilarity * contentHashWeight
  { overall := similarity
    signatures := signatureSimilarity
    importExports := importExportSimilarity
    content := contentSimilarity
    commonSignatures := commonSignatures.length
    totalSignatures := totalSignatures
    commonImportExports := commonImportExports.length
    totalImportExports := totalImportExports }

lemma filter_contains_length_comm (A B : List String) (hA : A.Nodup)
    (hB : B.Nodup) :
    (A.filter (fun x => B.contains x)).length =
      (B.filter (fun x => A.contains x)).length := by
  have key : ∀ (X Y : List String), X.Nodup →
      (X.filter (fun x => Y.contains x)).length =
        (X.toFinset ∩ Y.toFinset).card := by
    intro X Y hX
    rw [← List.toFinset_card_of_nodup (hX.filter _)]
    congr 1
    ext a
    simp [List.mem_filter]
  rw [key A B hA, key B A hB, Finset.inter_comm]

lemma dedup_append_length_comm (A B : List String) :
    (A ++ B).dedup.length = (B ++ A).dedup.length := by
  rw [← List.card_toFinset, ← List.card_toFinset]
  congr 1
  ext a
  simp [or_comm]

/-- C8: the overall similarity score is symmetric on duplicate-free
fingerprints (as produced by `createCodeFingerprint`, whose signature
and import/export lists come from `Set`s). -/
theorem calculateSimilarity_symm (f1 f2 : Fingerprint)
    (h1 : f1.functionSignatures.Nodup) (h2 : f2.functionSignatures.Nodup)
    (h3 : f1.importExports.Nodup) (h4 : f2.importExports.Nodup) :
    (calculateSimilarity f1 f2).overall =
      (calculateSimilarity f2 f1).overall := by
  simp only [calculateSimilarity]
  rw [filter_contains_length_comm _ _ h1 h2,
    dedup_append_length_comm f1.functionSignatures f2.functionSignatures,
    filter_contains_length_comm _ _ h3 h4,
    dedup_append_length_comm f1.importExports f2.importExports]
  by_cases hch : f1.contentHash = f2.contentHash
  · rw [if_pos hch, if_pos hch.symm]
  · have hch' : ¬ f2.contentHash = f1.contentHash := fun hh => hch hh.symm
    rw [if_neg hch, if_neg hch']

/-- Witness for `calculateSimilarity_symm` on two concrete
fingerprints. -/
theorem calculateSimilarity_symm_witness :
    let fA : Fingerprint := ⟨["function a()", "function b()"],
      ["import x;"], "h1", 2, 1, 100⟩
    let fB : Fingerprint := ⟨["function b()"], ["import x;", "import y;"],
      "h2", 1, 2, 120⟩
    fA.functionSignatures.Nodup ∧ fB.functionSignatures.Nodup ∧
    fA.importExports.Nodup ∧ fB.importExports.Nodup ∧
    (calculateSimilarity fA fB).overall =
      (calculateSimilarity fB fA).overall := by
  refine ⟨by decide, by decide, by decide, by decide, ?_⟩
  exact calculateSimilarity_symm _ _ (by decide) (by decide) (by decide)
    (by decide)

/-! ## CodeSimilarityAnalyzer: seed-based clustering

The clustering section of `analyzeFileRelationships`: iterate urls in
order; each unprocessed url seeds a cluster, later unprocessed urls are
added when their similarity *to the seed* reaches the threshold; a
cluster of size one is reported as a singleton.  `fp` is the fingerprint
computed for each url (`fingerprints[url].fingerprint`); the `processed`
`Set` is modelled as a list queried by membership.
-/

/-- `this.similarityThreshold = 0.7`. -/
def similarityThreshold : ℚ := 7 / 10

/-- The inner `for (let j = i + 1; …)` scan: returns the members added
to the seed's cluster and the updated `processed` set. -/
def buildCluster (fp : String → Fingerprint) (url1 : String) :
    List String → List String → List String × List String
  | [], processed => ([], processed)
  | url2 :: rest, processed =>
      if url2 ∈ processed then buildCluster fp url1 rest processed
      else if similarityThreshold ≤
          (calculateSimilarity (fp url1) (fp url2)).overall then
        (url2 :: (buildCluster fp url1 rest (url2 :: processed)).1,
          (buildCluster fp url1 rest (url2 :: processed)).2)
      else buildCluster fp url1 rest processed

/-- The outer `for (let i = 0; …)` loop: produces the cluster list and
the singleton list. -/
def clusterLoop (fp : String → Fingerprint) :
    List String → List String → List (List String) × List String
  | [], _ => ([], [])
  | url1 :: rest, processed =>
      if url1 ∈ processed then clusterLoop fp rest processed
      else
        let members := (buildCluster fp url1 rest (url1 :: processed)).1
        let p' := (buildCluster fp url1 rest (url1 :: processed)).2
        if 1 < (url1 :: members).length then
          ((url1 :: members) :: (clusterLoop fp rest p').1,
            (clusterLoop fp rest p').2)
        else
          ((clusterLoop fp rest p').1, url1 :: (clusterLoop fp rest p').2)

/-- The clustering phase of `analyzeFileRelationships(domain)`, starting
from an empty `processed` set over the domain's url list. -/
def analyzeClusters (fp : String → Fingerprint) (urls : List String) :
    List (List String) × List String :=
  clusterLoop fp urls []

lemma buildCluster_spec (fp : String → Fingerprint) (url1 : String) :
    ∀ (rest processed : List String),
      ((buildCluster fp url1 rest processed).1.Sublist rest) ∧
      (∀ m ∈ (buildCluster fp url1 rest processed).1,
        similarityThreshold ≤
          (calculateSimilarity (fp url1) (fp m)).overall ∧ m ∉ processed) ∧
      (∀ x, x ∈ (buildCluster fp url1 rest processed).2 ↔
        x ∈ processed ∨ x ∈ (buildCluster fp url1 rest processed).1) := by
  intro rest
  induction rest with
  | nil =>
      intro processed
      refine ⟨?_, ?_, ?_⟩ <;> simp [buildCluster]
  | cons url2 rest ih =>
      intro processed
      by_cases hmem : url2 ∈ processed
      · rw [buildCluster, if_pos hmem]
        obtain ⟨hsub, hdom, hproc⟩ := ih processed
        exact ⟨hsub.cons url2, hdom, hproc⟩
      · by_cases hsim : similarityThreshold ≤
            (calculateSimilarity (fp url1) (fp url2)).overall
        · rw [buildCluster, if_neg hmem, if_pos hsim]
          obtain ⟨hsub, hdom, hproc⟩ := ih (url2 :: processed)
          refine ⟨hsub.cons₂ url2, ?_, ?_⟩
          · intro m hm
            rcases List.mem_cons.1 hm with hm | hm
            · subst hm; exact ⟨hsim, hmem⟩
            · obtain ⟨hsim', hnp⟩ := hdom m hm
              exact ⟨hsim', fun hmp => hnp (List.mem_cons_of_mem _ hmp)⟩
          · intro x
            rw [hproc x]
            simp only [List.mem_cons]
            constructor
            · rintro ((h | h) | h)
              · exact Or.inr (Or.inl h)
              · exact Or.inl h
              · exact Or.inr (Or.inr h)
            · rintro (h | h | h)
              · exact Or.inl (Or.inr h)
              · exact Or.inl (Or.inl h)
              · exact Or.inr h
        · rw [buildCluster, if_neg hmem, if_neg hsim]
          obtain ⟨hsub, hdom, hproc⟩ := ih processed
          exact ⟨hsub.cons url2, hdom, hproc⟩

lemma clusterLoop_cons (fp : String → Fingerprint) (url1 : String)
    (rest processed : List String) :
    clusterLoop fp (url1 :: rest) processed =
      if url1 ∈ processed then clusterLoop fp rest processed
      else if 1 < (url1 ::
          (buildCluster fp url1 rest (url1 :: processed)).1).length then
        ((url1 :: (buildCluster fp url1 rest (url1 :: processed)).1) ::
          (clusterLoop fp rest
            (buildCluster fp url1 rest (url1 :: processed)).2).1,
          (clusterLoop fp rest
            (buildCluster fp url1 rest (url1 :: processed)).2).2)
      else
        ((clusterLoop fp rest
            (buildCluster fp url1 rest (url1 :: processed)).2).1,
          url1 :: (clusterLoop fp rest
            (buildCluster fp url1 rest (url1 :: processed)).2).2) := rfl

/-- Every url the clustering run emits (clustered or singleton). -/
def clusterOut (fp : String → Fingerprint) (rest processed : List String) :
    List String :=
  (clusterLoop fp rest processed).1.flatten ++ (clusterLoop fp rest processed).2

lemma clusterOut_mem (fp : String → Fingerprint) :
    ∀ (rest processed : List String), ∀ x ∈ clusterOut fp rest processed,
      x ∈ rest ∧ x ∉ processed := by
  intro rest
  induction rest with
  | nil => intro processed x hx; simp [clusterOut, clusterLoop] at hx
  | cons url1 rest ih =>
      intro processed x hx
      unfold clusterOut at hx
      rw [clusterLoop_cons] at hx
      by_cases hmem : url1 ∈ processed
      · rw [if_pos hmem] at hx
        obtain ⟨h1, h2⟩ := ih processed x hx
        exact ⟨List.mem_cons_of_mem _ h1, h2⟩
      · rw [if_neg hmem] at hx
        obtain ⟨hsub, hdom, hproc⟩ :=
          buildCluster_spec fp url1 rest (url1 :: processed)
        by_cases hlen : 1 < (url1 ::
            (buildCluster fp url1 rest (url1 :: processed)).1).length
        · rw [if_pos hlen] at hx
          simp only [List.flatten_cons, List.append_assoc, List.mem_append,
            List.mem_cons] at hx
          rcases hx with (hx | hx) | hx | hx
          · subst hx; exact ⟨List.mem_cons_self _ _, hmem⟩
          · refine ⟨List.mem_cons_of_mem _ (hsub.mem hx), ?_⟩
            exact fun hp =>
              (hdom x hx).2 (List.mem_cons_of_mem _ hp)
          · obtain ⟨h1, h2⟩ := ih _ x (by
              unfold clusterOut; exact List.mem_append.2 (Or.inl hx))
            refine ⟨List.mem_cons_of_mem _ h1, fun hp => h2 ?_⟩
            exact (hproc x).2 (Or.inl (List.mem_cons_of_mem _ hp))
          · obtain ⟨h1, h2⟩ := ih _ x (by
              unfold clusterOut; exact List.mem_append.2 (Or.inr hx))
            refine ⟨List.mem_cons_of_mem _ h1, fun hp => h2 ?_⟩
            exact (hproc x).2 (Or.inl (List.mem_cons_of_mem _ hp))
        · rw [if_neg hlen] at hx
          simp only [List.mem_append, List.mem_cons] at hx
          rcases hx with hx | hx | hx
          · obtain ⟨h1, h2⟩ := ih _ x (by
              unfold clusterOut; exact List.mem_append.2 (Or.inl hx))
            refine ⟨List.mem_cons_of_mem _ h1, fun hp => h2 ?_⟩
            exact (hproc x).2 (Or.inl (List.mem_cons_of_mem _ hp))
          · subst hx; exact ⟨List.mem_cons_self _ _, hmem⟩
          · obtain ⟨h1, h2⟩ := ih _ x (by
              unfold clusterOut; exact List.mem_append.2 (Or.inr hx))
            refine ⟨List.mem_cons_of_mem _ h1, fun hp => h2 ?_⟩
            exact (hproc x).2 (Or.inl (List.mem_cons_of_mem _ hp))

lemma clusterOut_nodup (fp : String → Fingerprint) :
    ∀ (rest processed : List String), rest.Nodup →
      (clusterOut fp rest processed).Nodup := by
  intro rest
  induction rest with
  | nil => intro processed _; simp [clusterOut, clusterLoop]
  | cons url1 rest ih =>
      intro processed hnd
      rw [List.nodup_cons] at hnd
      unfold clusterOut
      rw [clusterLoop_cons]
      by_cases hmem : url1 ∈ processed
      · rw [if_pos hmem]
        exact ih processed hnd.2
      · rw [if_neg hmem]
        obtain ⟨hsub, hdom, hproc⟩ :=
          buildCluster_spec fp url1 rest (url1 :: processed)
        have hurl1p' : url1 ∈ (buildCluster fp url1 rest (url1 :: processed)).2 :=
          (hproc url1).2 (Or.inl (List.mem_cons_self _ _))
        have hurl1out : url1 ∉ clusterOut fp rest
            (buildCluster fp url1 rest (url1 :: processed)).2 := by
          intro hx
          exact (clusterOut_mem fp rest _ url1 hx).2 hurl1p'
        by_cases hlen : 1 < (url1 ::
            (buildCluster fp url1 rest (url1 :: processed)).1).length
        · rw [if_pos hlen]
          simp only [List.flatten_cons, List.append_assoc]
          rw [List.cons_append, List.nodup_cons]
          constructor
          · intro hx
            rcases List.mem_append.1 hx with hx | hx
            · exact (hdom url1 hx).2 (List.mem_cons_self _ _)
            · exact hurl1out hx
          · rw [List.nodup_append]
            refine ⟨hsub.nodup hnd.2, ih _ hnd.2, ?_⟩
            intro a ha hb
            have hap' : a ∈ (buildCluster fp url1 rest (url1 :: processed)).2 :=
              (hproc a).2 (Or.inr ha)
            exact (clusterOut_mem fp rest _ a hb).2 hap'
        · rw [if_neg hlen]
          rw [List.nodup_middle]
          rw [List.nodup_cons]
          exact ⟨hurl1out, ih _ hnd.2⟩

lemma clusterLoop_shape (fp : String → Fingerprint) :
    ∀ (rest processed : List String),
      ∀ C ∈ (clusterLoop fp rest processed).1,
        ∃ seed members, C = seed :: members ∧ members ≠ [] ∧
          ∀ m ∈ members, similarityThreshold ≤
            (calculateSimilarity (fp seed) (fp m)).overall := by
  intro rest
  induction rest with
  | nil => intro processed C hC; simp [clusterLoop] at hC
  | cons url1 rest ih =>
      intro processed C hC
      rw [clusterLoop_cons] at hC
      by_cases hmem : url1 ∈ processed
      · rw [if_pos hmem] at hC
        exact ih processed C hC
      · rw [if_neg hmem] at hC
        obtain ⟨hsub, hdom, hproc⟩ :=
          buildCluster_spec fp url1 rest (url1 :: processed)
        by_cases hlen : 1 < (url1 ::
            (buildCluster fp url1 rest (url1 :: processed)).1).length
        · rw [if_pos hlen] at hC
          rcases List.mem_cons.1 hC with hC | hC
          · refine ⟨url1, (buildCluster fp url1 rest (url1 :: processed)).1,
              hC, ?_, fun m hm => (hdom m hm).1⟩
            intro hnil
            rw [hnil] at hlen
            simp at hlen
          · exact ih _ C hC
        · rw [if_neg hlen] at hC
          exact ih _ C hC

/-- C7: for a duplicate-free url list, every cluster the run produces is
its seed followed by members whose similarity *to the seed* reaches the
threshold; clusters have at least two elements (a lone seed is reported
as a singleton instead); and no url appears twice across the produced
clusters and singletons (each file is assigned at most once). -/
theorem analyzeClusters_spec (fp : String → Fingerprint)
    (urls : List String) (hnd : urls.Nodup) :
    (∀ C ∈ (analyzeClusters fp urls).1, ∃ seed members,
      C = seed :: members ∧ members ≠ [] ∧
      ∀ m ∈ members, similarityThreshold ≤
        (calculateSimilarity (fp seed) (fp m)).overall) ∧
    (∀ C ∈ (analyzeClusters fp urls).1, 2 ≤ C.length) ∧
    ((analyzeClusters fp urls).1.flatten ++
      (analyzeClusters fp urls).2).Nodup := by
  refine ⟨fun C hC => clusterLoop_shape fp urls [] C hC, ?_, ?_⟩
  · intro C hC
    obtain ⟨seed, members, hCe, hne, _⟩ := clusterLoop_shape fp urls [] C hC
    subst hCe
    cases members with
    | nil => exact absurd rfl hne
    | cons a tl => simp [Nat.succ_le_succ, Nat.le_add_left]
  · exact clusterOut_nodup fp urls [] hnd

/-- Witness for `analyzeClusters_spec`: two urls with identical
fingerprints cluster together; a third, dissimilar one stays a
singleton. -/
theorem analyzeClusters_spec_witness :
    let f0 : Fingerprint := ⟨["function a()"], ["import x;"], "h", 1, 1, 10⟩
    let g0 : Fingerprint := ⟨["function z()"], ["import w;"], "k", 1, 1, 20⟩
    let fp : String → Fingerprint := fun u => if u = "c" then g0 else f0
    (["a", "b", "c"] : List String).Nodup ∧
    ((∀ C ∈ (analyzeClusters fp ["a", "b", "c"]).1, ∃ seed members,
      C = seed :: members ∧ members ≠ [] ∧
      ∀ m ∈ members, similarityThreshold ≤
        (calculateSimilarity (fp seed) (fp m)).overall) ∧
    (∀ C ∈ (analyzeClusters fp ["a", "b", "c"]).1, 2 ≤ C.length) ∧
    ((analyzeClusters fp ["a", "b", "c"]).1.flatten ++
      (analyzeClusters fp ["a", "b", "c"]).2).Nodup) := by
  refine ⟨by decide, ?_⟩
  exact analyzeClusters_spec _ _ (by decide)

/-! ## On-disk filename encoding (saveJSFile / decodeFileName)

`saveJSFile` names a file `encodeURIComponent(url).replace(/%/g,'_') +
'.js'`; `decodeFileName` strips `.js`, maps `_` back to `%` and calls
`decodeURIComponent`, falling back to the bare name if decoding throws.

`encodeURIComponent`/`decodeURIComponent` are JS builtins; they are
modelled here for ASCII code points (percent-encoding with uppercase
hex of every character outside the unreserved set
`A–Z a–z 0–9 - _ . ! ~ * ' ( )`; decoding rejects malformed or
non-ASCII escapes, which plays the role of the thrown `URIError`).
Strings are `List Char`.
-/

/-- The characters `encodeURIComponent` leaves unescaped. -/
def isUriUnreserved (c : Char) : Bool :=
  (('A' ≤ c && c ≤ 'Z') || ('a' ≤ c && c ≤ 'z') || ('0' ≤ c && c ≤ '9') ||
    c = '-' || c = '_' || c = '.' || c = '!' || c = '~' || c = '*' ||
    c = Char.ofNat 39 || c = '(' || c = ')')

/-- Uppercase hex digit of `n < 16`. -/
def hexChar (n : Nat) : Char :=
  if n < 10 then Char.ofNat (48 + n) else Char.ofNat (55 + n)

/-- Value of a hex digit character, `none` otherwise. -/
def hexVal (c : Char) : Option Nat :=
  if '0' ≤ c ∧ c ≤ '9' then some (c.toNat - 48)
  else if 'A' ≤ c ∧ c ≤ 'F' then some (c.toNat - 55)
  else if 'a' ≤ c ∧ c ≤ 'f' then some (c.toNat - 87)
  else none

/-- Percent-encoding of one character (ASCII model). -/
def encodeChar (c : Char) : List Char :=
  if isUriUnreserved c then [c]
  else ['%', hexChar (c.toNat / 16), hexChar (c.toNat % 16)]

/-- `encodeURIComponent(url)` (ASCII model). -/
def encodeURIComponent (url : List Char) : List Char :=
  (url.map encodeChar).flatten

/-- `decodeURIComponent` (ASCII model): `none` models the thrown
`URIError` on malformed escapes, and this model also rejects escapes of
non-ASCII bytes rather than following UTF-8 continuation. -/
def decodeURIComponent : List Char → Option (List Char)
  | [] => some []
  | c :: rest =>
      if c = '%' then
        match rest with
        | h :: l :: rest' =>
            match hexVal h, hexVal l with
            | some hv, some lv =>
                if 16 * hv + lv < 128 then
                  (decodeURIComponent rest').map
                    (fun d => Char.ofNat (16 * hv + lv) :: d)
                else none
            | _, _ => none
        | _ => none
      else (decodeURIComponent rest).map (fun d => c :: d)

/-- `encodeURIComponent(url).replace(/%/g, '_') + '.js'` — the stored
filename, from `saveJSFile`. -/
def saveFileName (url : List Char) : List Char :=
  (encodeURIComponent url).map (fun c => if c = '%' then '_' else c) ++
    '.' :: 'j' :: 's' :: []

/-- `fileName.replace(/\.js$/, '')`. -/
def dropDotJs (l : List Char) : List Char :=
  match l.reverse with
  | 's' :: 'j' :: '.' :: rest => rest.reverse
  | _ => l

/-- `decodeFileName(fileName)`: strip the `.js` extension, turn `_` back
into `%`, decode; on a decoding error return the name without the
extension. -/
def decodeFileName (fileName : List Char) : List Char :=
  let withoutExtension := dropDotJs fileName
  match decodeURIComponent
      (withoutExtension.map (fun c => if c = '_' then '%' else c)) with
  | some decoded => decoded
  | none => withoutExtension

/-- C10 counterexample: the url `a_20` is stored as `a_20.js`, but
`decodeFileName` maps the url's own underscore to `%` and decodes
`a%20` to `a␣` — the round trip loses urls containing `_`. -/
theorem decodeFileName_not_inverse_cex :
    decodeFileName (saveFileName ['a', '_', '2', '0']) = ['a', ' '] ∧
    (['a', ' '] : List Char) ≠ ['a', '_', '2', '0'] := by
  refine ⟨?_, by decide⟩
  rfl

lemma hexVal_hexChar : ∀ n < 16, hexVal (hexChar n) = some n := by decide

lemma hexChar_ne_underscore : ∀ n < 16, hexChar n ≠ '_' := by decide

lemma hexChar_ne_percent : ∀ n < 16, hexChar n ≠ '%' := by decide

lemma decode_cons_ne_percent (c : Char) (t : List Char) (hc : c ≠ '%') :
    decodeURIComponent (c :: t) =
      (decodeURIComponent t).map (fun d => c :: d) := by
  conv_lhs => rw [decodeURIComponent.eq_def]
  simp only []
  rw [if_neg hc]

lemma decode_percent_triple (h l : Char) (t : List Char) (hv lv : Nat)
    (hh : hexVal h = some hv) (hl : hexVal l = some lv)
    (hb : 16 * hv + lv < 128) :
    decodeURIComponent ('%' :: h :: l :: t) =
      (decodeURIComponent t).map
        (fun d => Char.ofNat (16 * hv + lv) :: d) := by
  conv_lhs => rw [decodeURIComponent.eq_def]
  simp only []
  rw [if_pos trivial, hh, hl]
  simp only []
  rw [if_pos hb]

lemma decode_encodeChar (c : Char) (hc : c.toNat < 128) (t : List Char) :
    decodeURIComponent (encodeChar c ++ t) =
      (decodeURIComponent t).map (fun d => c :: d) := by
  unfold encodeChar
  by_cases hu : isUriUnreserved c
  · rw [if_pos hu]
    have hcp : c ≠ '%' := by
      intro h
      subst h
      exact absurd hu (by decide)
    rw [List.cons_append, List.nil_append, decode_cons_ne_percent c t hcp]
  · rw [if_neg hu]
    have hdiv : c.toNat / 16 < 16 := by omega
    have hmod : c.toNat % 16 < 16 := Nat.mod_lt _ (by omega)
    have hb : 16 * (c.toNat / 16) + c.toNat % 16 < 128 := by omega
    have := decode_percent_triple (hexChar (c.toNat / 16))
      (hexChar (c.toNat % 16)) t (c.toNat / 16) (c.toNat % 16)
      (hexVal_hexChar _ hdiv) (hexVal_hexChar _ hmod) hb
    simp only [List.cons_append, List.nil_append]
    rw [this]
    have hcn : 16 * (c.toNat / 16) + c.toNat % 16 = c.toNat := by omega
    rw [hcn, Char.ofNat_toNat]

lemma decode_encode (url : List Char) (hascii : ∀ c ∈ url, c.toNat < 128) :
    decodeURIComponent (encodeURIComponent url) = some url := by
  induction url with
  | nil => rfl
  | cons c url ih =>
      have hc : c.toNat < 128 := hascii c (List.mem_cons_self _ _)
      have hrest : ∀ x ∈ url, x.toNat < 128 :=
        fun x hx => hascii x (List.mem_cons_of_mem _ hx)
      have henc : encodeURIComponent (c :: url) =
          encodeChar c ++ encodeURIComponent url := by
        simp [encodeURIComponent]
      rw [henc, decode_encodeChar c hc, ih hrest]
      rfl

lemma underscore_not_mem_encode (url : List Char)
    (hascii : ∀ c ∈ url, c.toNat < 128) (hund : ('_' : Char) ∉ url) :
    ('_' : Char) ∉ encodeURIComponent url := by
  intro hmem
  unfold encodeURIComponent at hmem
  rw [List.mem_flatten] at hmem
  obtain ⟨l, hl, hul⟩ := hmem
  rw [List.mem_map] at hl
  obtain ⟨c, hc, hce⟩ := hl
  subst hce
  unfold encodeChar at hul
  by_cases hu : isUriUnreserved c
  · rw [if_pos hu] at hul
    rw [List.mem_singleton] at hul
    exact hund (hul ▸ hc)
  · rw [if_neg hu] at hul
    have hcn : c.toNat < 128 := hascii c hc
    rcases List.mem_cons.1 hul with h | h
    · exact absurd h.symm (by decide)
    rcases List.mem_cons.1 h with h | h
    · exact hexChar_ne_underscore (c.toNat / 16) (by omega) h.symm
    rcases List.mem_cons.1 h with h | h
    · exact hexChar_ne_underscore (c.toNat % 16)
        (Nat.mod_lt _ (by omega)) h.symm
    · simp at h

lemma map_underscore_roundtrip (l : List Char) (h : ('_' : Char) ∉ l) :
    (l.map (fun c => if c = '%' then '_' else c)).map
      (fun c => if c = '_' then '%' else c) = l := by
  induction l with
  | nil => rfl
  | cons c rest ih =>
      have hcu : c ≠ '_' := fun hh => h (hh ▸ List.mem_cons_self _ _)
      have hrest := ih (fun hh => h (List.mem_cons_of_mem _ hh))
      simp only [List.map_cons, hrest]
      by_cases hcp : c = '%'
      · subst hcp
        simp
      · rw [if_neg hcp, if_neg hcu]

lemma dropDotJs_append (x : List Char) :
    dropDotJs (x ++ '.' :: 'j' :: 's' :: []) = x := by
  unfold dropDotJs
  rw [List.reverse_append]
  simp

/-- C10 amended: the stored-filename encoding is invertible for every
ASCII url that contains no `_` character — on such urls `decodeFileName`
recovers exactly the url `saveJSFile` encoded.  (Urls containing `_`
collide with the `%`→`_` substitution and are not recovered, see the
counterexample.) -/
theorem decodeFileName_saveFileName (url : List Char)
    (hascii : ∀ c ∈ url, c.toNat < 128) (hund : ('_' : Char) ∉ url) :
    decodeFileName (saveFileName url) = url := by
  unfold decodeFileName saveFileName
  rw [dropDotJs_append]
  simp only [map_underscore_roundtrip _
    (underscore_not_mem_encode url hascii hund), decode_encode url hascii]

/-- Witness for `decodeFileName_saveFileName` on the underscore-free url
`https://x.test/a b.js`. -/
theorem decodeFileName_saveFileName_witness :
    (∀ c ∈ ("https://x.test/a b.js".data : List Char), c.toNat < 128) ∧
    (('_' : Char) ∉ ("https://x.test/a b.js".data : List Char)) ∧
    decodeFileName (saveFileName "https://x.test/a b.js".data) =
      "https://x.test/a b.js".data := by
  refine ⟨by decide, by decide, ?_⟩
  exact decodeFileName_saveFileName _ (by decide) (by decide)

/-! ## EndpointExtractor: candidate cleaning and the validity predicate

`cleanEndpoint` strips one surrounding quote on each side, trims
whitespace, and removes a trailing run of `, ; ) } ]`.
`isValidEndpoint` applies exclusion regexes first, then inclusion
regexes.  Strings are `List Char`; character classes are stated on
ASCII code points (the regexes' classes are ASCII; `trim`'s rarer
Unicode spaces are outside this model's inputs).  The code points used
below: `'`=39, `"`=34, backtick=96, `,`=44, `;`=59, `(`=40, `)`=41,
`{`=123, `}`=125, `[`=91, `]`=93, `.`=46, `/`=47, `-`=45, `_`=95.
-/

/-- `['"\x60]` (the quote class). -/
def isQuoteChar (c : Char) : Bool :=
  c.toNat = 39 || c.toNat = 34 || c.toNat = 96

/-- Whitespace as removed by `trim` / matched by `\s` (ASCII part). -/
def isSpaceChar (c : Char) : Bool :=
  c.toNat = 32 || c.toNat = 9 || c.toNat = 10 || c.toNat = 13 ||
  c.toNat = 12 || c.toNat = 11

/-- `[,;)}\]]` — the trailing-junk class of `cleanEndpoint`. -/
def isPunctTail (c : Char) : Bool :=
  c.toNat = 44 || c.toNat = 59 || c.toNat = 41 || c.toNat = 125 ||
  c.toNat = 93

/-- `[a-zA-Z]`. -/
def isAsciiLetter (c : Char) : Bool :=
  (65 ≤ c.toNat && c.toNat ≤ 90) || (97 ≤ c.toNat && c.toNat ≤ 122)

/-- `[0-9]`. -/
def isDigitChar (c : Char) : Bool :=
  48 ≤ c.toNat && c.toNat ≤ 57

/-- `[a-zA-Z0-9]`. -/
def isAlnum (c : Char) : Bool :=
  isAsciiLetter c || isDigitChar c

/-- `/`. -/
def isSlash (c : Char) : Bool := c.toNat = 47

/-- Any character one of `cleanEndpoint`'s three passes can remove. -/
def removableChar (c : Char) : Bool :=
  isQuoteChar c || isSpaceChar c || isPunctTail c

/-- ASCII lower-casing (`toLowerCase` / the `i` regex flag on ASCII). -/
def toLowerChar (c : Char) : Char :=
  if 65 ≤ c.toNat ∧ c.toNat ≤ 90 then Char.ofNat (c.toNat + 32) else c

/-- `replace(/^['"\x60]/, '')`: drop one leading quote. -/
def stripLeadQuote (s : List Char) : List Char :=
  match s with
  | [] => []
  | c :: rest => if isQuoteChar c then rest else c :: rest

/-- `replace(/['"\x60]$/, '')`: drop one trailing quote. -/
def stripTrailQuote (s : List Char) : List Char :=
  match s.reverse with
  | [] => s
  | c :: rest => if isQuoteChar c then rest.reverse else s

/-- Leading half of `trim()`. -/
def trimLeft (s : List Char) : List Char := s.dropWhile isSpaceChar

/-- Trailing half of `trim()`. -/
def trimRight (s : List Char) : List Char :=
  (s.reverse.dropWhile isSpaceChar).reverse

/-- `trim()`. -/
def jsTrim (s : List Char) : List Char := trimRight (trimLeft s)

/-- `replace(/[,;)}\]]+$/, '')`. -/
def dropTrailPunct (s : List Char) : List Char :=
  (s.reverse.dropWhile isPunctTail).reverse

/-- `cleanEndpoint(endpoint)`: strip surrounding quotes, trim, strip
trailing `, ; ) } ]`. -/
def cleanEndpoint (s : List Char) : List Char :=
  dropTrailPunct (jsTrim (stripTrailQuote (stripLeadQuote s)))

/-- `/^[a-zA-Z]$/` — a single letter. -/
def exSingleLetter (s : List Char) : Bool :=
  match s with
  | [c] => isAsciiLetter c
  | _ => false

/-- `/^[0-9]+$/` — digits only. -/
def exDigitsOnly (s : List Char) : Bool :=
  !s.isEmpty && s.all isDigitChar

/-- `/^[^a-zA-Z0-9\/]/` — starts with a special character. -/
def exStartsSpecial (s : List Char) : Bool :=
  match s with
  | [] => false
  | c :: _ => !(isAlnum c || isSlash c)

/-- `/^(true|false|null|undefined)$/i`. -/
def boolWords : List (List Char) :=
  [String.data "true", String.data "false", String.data "null",
    String.data "undefined"]

/-- Exclusion: equals a boolean/null word, case-insensitively. -/
def exBoolWord (s : List Char) : Bool :=
  boolWords.contains (s.map toLowerChar)

/-- `/^[a-zA-Z]{1,2}$/` — one or two letters. -/
def exShortLetters (s : List Char) : Bool :=
  decide (1 ≤ s.length) && decide (s.length ≤ 2) && s.all isAsciiLetter

/-- `/^(var|let|const|function|return|if|else|for|while|class)$/i`. -/
def jsKeywords : List (List Char) :=
  [String.data "var", String.data "let", String.data "const",
    String.data "function", String.data "return", String.data "if",
    String.data "else", String.data "for", String.data "while",
    String.data "class"]

/-- Exclusion: equals a JavaScript keyword, case-insensitively. -/
def exJsKeyword (s : List Char) : Bool :=
  jsKeywords.contains (s.map toLowerChar)

/-- `/^[\s\n\r\t]+$/` — whitespace only. -/
def exWhitespaceOnly (s : List Char) : Bool :=
  !s.isEmpty && s.all isSpaceChar

/-- The class of `/^['"\x60,;(){}[\]]+$/`. -/
def isPunct8 (c : Char) : Bool :=
  c.toNat = 39 || c.toNat = 34 || c.toNat = 96 || c.toNat = 44 ||
  c.toNat = 59 || c.toNat = 40 || c.toNat = 41 || c.toNat = 123 ||
  c.toNat = 125 || c.toNat = 91 || c.toNat = 93

/-- `/^['"\x60,;(){}[\]]+$/` — punctuation only. -/
def exPunctOnly (s : List Char) : Bool :=
  !s.isEmpty && s.all isPunct8

/-- Any of the `invalidPatterns` tests. -/
def invalidAny (s : List Char) : Bool :=
  exSingleLetter s || exDigitsOnly s || exStartsSpecial s ||
  exBoolWord s || exShortLetters s || exJsKeyword s ||
  exWhitespaceOnly s || exPunctOnly s

/-- `/^\/[a-zA-Z0-9]/` — starts with `/` then an alphanumeric. -/
def incSlashStart (s : List Char) : Bool :=
  match s with
  | c1 :: c2 :: _ => isSlash c1 && isAlnum c2
  | _ => false

/-- `/^https?:\/\//`. -/
def incHttpUrl (s : List Char) : Bool :=
  (String.data "http://").isPrefixOf s ||
  (String.data "https://").isPrefixOf s

/-- `/^ws[s]?:\/\//`. -/
def incWsUrl (s : List Char) : Bool :=
  (String.data "ws://").isPrefixOf s ||
  (String.data "wss://").isPrefixOf s

/-- Scan of the reversed string for `/\.[a-zA-Z0-9]+$/`: an
alphanumeric run then a dot. -/
def extAfter : List Char → Bool
  | [] => false
  | c :: rest => if c.toNat = 46 then true else isAlnum c && extAfter rest

/-- `/\.[a-zA-Z0-9]+$/` — ends with a file extension. -/
def incExtension (s : List Char) : Bool :=
  match s.reverse with
  | [] => false
  | c :: rest => isAlnum c && extAfter rest

/-- `/\/[a-zA-Z0-9]/` — contains `/` followed by an alphanumeric. -/
def hasSlashAlnum : List Char → Bool
  | [] => false
  | [_] => false
  | c1 :: c2 :: rest =>
      (isSlash c1 && isAlnum c2) || hasSlashAlnum (c2 :: rest)

/-- The class `[a-zA-Z0-9._-]`. -/
def inDomainClass (c : Char) : Bool :=
  isAlnum c || c.toNat = 46 || c.toNat = 95 || c.toNat = 45

/-- Scan for `[a-zA-Z0-9._-]*\/` (the first slash ends it). -/
def scanDomainLike : List Char → Bool
  | [] => false
  | c :: rest =>
      if isSlash c then true else inDomainClass c && scanDomainLike rest

/-- `/^[a-zA-Z0-9][a-zA-Z0-9._-]*\//` — domain-like start. -/
def incDomainLike (s : List Char) : Bool :=
  match s with
  | [] => false
  | c :: rest => isAlnum c && scanDomainLike rest

/-- The keyword alternatives of the endpoint-keyword regex
(`users?` is containment of `user`). -/
def endpointKeywords : List (List Char) :=
  [String.data "api", String.data "graphql", String.data "rest",
    String.data "auth", String.data "login", String.data "admin",
    String.data "dashboard", String.data "config", String.data "upload",
    String.data "download", String.data "data", String.data "user",
    String.data "profile", String.data "settings"]

/-- Substring containment: `k` occurs contiguously in `s`. -/
def containsSeq (k : List Char) : List Char → Bool
  | [] => k.isEmpty
  | c :: rest => k.isPrefixOf (c :: rest) || containsSeq k rest

/-- `/api|graphql|…|users?|profile|settings/i` — contains an endpoint
keyword. -/
def incKeyword (s : List Char) : Bool :=
  endpointKeywords.any (fun k => containsSeq k (s.map toLowerChar))

/-- `/\$\{[^}]*\}/` — contains a template placeholder: `${` with a
later `}`. -/
def hasPlaceholder : List Char → Bool
  | c1 :: c2 :: rest =>
      (c1.toNat = 36 && c2.toNat = 123 &&
        rest.any (fun c => c.toNat = 125)) ||
      hasPlaceholder (c2 :: rest)
  | _ => false

/-- The class `[-a-zA-Z0-9._/]` (alphanumerics plus `.`, `_`, `/`, `-`). -/
def inPathClass2 (c : Char) : Bool :=
  isAlnum c || c.toNat = 46 || c.toNat = 95 || c.toNat = 47 ||
  c.toNat = 45

/-- Scan for a domain-class run, a slash, then a path-class character. -/
def scanPath : List Char → Bool
  | [] => false
  | c :: rest =>
      if isSlash c then
        match rest with
        | d :: _ => inPathClass2 d
        | [] => false
      else inDomainClass c && scanPath rest

/-- The path-like-structure inclusion: a domain-class run, `/`, then a path-class run. -/
def incPathLike (s : List Char) : Bool :=
  match s with
  | [] => false
  | c :: rest => inDomainClass c && scanPath rest

/-- Any of the `validPatterns` tests, in source order. -/
def validAny (s : List Char) : Bool :=
  incSlashStart s || incHttpUrl s || incWsUrl s || incExtension s ||
  hasSlashAlnum s || incDomainLike s || incKeyword s ||
  hasPlaceholder s || incPathLike s

/-- `isValidEndpoint(endpoint)`: falsy/short strings are rejected, then
exclusion patterns, then inclusion patterns. -/
def isValidEndpoint (s : List Char) : Bool :=
  if s.length < 2 then false
  else if invalidAny s then false
  else validAny s

/-- The inclusion rules other than the template-placeholder rule. -/
def validOther (s : List Char) : Bool :=
  incSlashStart s || incHttpUrl s || incWsUrl s || incExtension s ||
  hasSlashAlnum s || incDomainLike s || incKeyword s || incPathLike s

/-- C9 counterexample: `a${x}` is valid (it contains a template
placeholder), but `cleanEndpoint` strips the trailing `}` and the
result `a${x` no longer passes the validity predicate. -/
theorem cleanEndpoint_validity_cex :
    let s : List Char := ['a', Char.ofNat 36, Char.ofNat 123, 'x',
      Char.ofNat 125]
    isValidEndpoint s = true ∧
    isValidEndpoint (cleanEndpoint s) = false := by
  exact ⟨by decide, by decide⟩

lemma stripTrailQuote_decomp (s : List Char) :
    ∃ r, s = stripTrailQuote s ++ r ∧ ∀ c ∈ r, isQuoteChar c = true := by
  cases hrev : s.reverse with
  | nil =>
      refine ⟨[], ?_, by simp⟩
      rw [stripTrailQuote, hrev]
      simp
  | cons c rest =>
      have hs : s = rest.reverse ++ [c] := by
        rw [← List.reverse_reverse s, hrev, List.reverse_cons]
      by_cases hq : isQuoteChar c
      · refine ⟨[c], ?_, by simpa using hq⟩
        rw [stripTrailQuote, hrev]
        simp only [if_pos hq]
        exact hs
      · refine ⟨[], ?_, by simp⟩
        rw [stripTrailQuote, hrev]
        simp only [if_neg hq]
        simp

lemma trimRight_decomp (s : List Char) :
    ∃ r, s = trimRight s ++ r ∧ ∀ c ∈ r, isSpaceChar c = true := by
  refine ⟨(s.reverse.takeWhile isSpaceChar).reverse, ?_, ?_⟩
  · have h1 : s.reverse.takeWhile isSpaceChar ++
        s.reverse.dropWhile isSpaceChar = s.reverse :=
      List.takeWhile_append_dropWhile _ _
    calc s = s.reverse.reverse := (List.reverse_reverse s).symm
      _ = (s.reverse.takeWhile isSpaceChar ++
            s.reverse.dropWhile isSpaceChar).reverse := by rw [h1]
      _ = (s.reverse.dropWhile isSpaceChar).reverse ++
            (s.reverse.takeWhile isSpaceChar).reverse := by
            rw [List.reverse_append]
      _ = trimRight s ++ (s.reverse.takeWhile isSpaceChar).reverse := rfl
  · intro c hc
    rw [List.mem_reverse] at hc
    exact List.mem_takeWhile_imp hc

lemma dropTrailPunct_decomp (s : List Char) :
    ∃ r, s = dropTrailPunct s ++ r ∧ ∀ c ∈ r, isPunctTail c = true := by
  refine ⟨(s.reverse.takeWhile isPunctTail).reverse, ?_, ?_⟩
  · have h1 : s.reverse.takeWhile isPunctTail ++
        s.reverse.dropWhile isPunctTail = s.reverse :=
      List.takeWhile_append_dropWhile _ _
    calc s = s.reverse.reverse := (List.reverse_reverse s).symm
      _ = (s.reverse.takeWhile isPunctTail ++
            s.reverse.dropWhile isPunctTail).reverse := by rw [h1]
      _ = (s.reverse.dropWhile isPunctTail).reverse ++
            (s.reverse.takeWhile isPunctTail).reverse := by
            rw [List.reverse_append]
      _ = dropTrailPunct s ++ (s.reverse.takeWhile isPunctTail).reverse :=
            rfl
  · intro c hc
    rw [List.mem_reverse] at hc
    exact List.mem_takeWhile_imp hc

lemma cons_of_decomp (P : Char → Bool) (c : Char) (t out r : List Char)
    (h : c :: t = out ++ r) (hr : ∀ x ∈ r, P x = true)
    (hc : P c = false) : ∃ t', out = c :: t' := by
  cases out with
  | nil =>
      exfalso
      have : c ∈ r := by
        rw [List.nil_append] at h
        rw [← h]
        exact List.mem_cons_self _ _
      rw [hr c this] at hc
      exact absurd hc (by simp)
  | cons d o' =>
      rw [List.cons_append] at h
      injection h with h1 h2
      exact ⟨o', by rw [h1]⟩

/-- Decomposition of `cleanEndpoint` on a string whose head none of the
passes can touch: the cleaned string keeps the head, and what was
removed is a suffix of removable characters. -/
lemma clean_decomp (c : Char) (t : List Char)
    (hq : isQuoteChar c = false) (hsp : isSpaceChar c = false)
    (hpu : isPunctTail c = false) :
    ∃ t' r, cleanEndpoint (c :: t) = c :: t' ∧
      c :: t = (c :: t') ++ r ∧ ∀ x ∈ r, removableChar x = true := by
  have hlead : stripLeadQuote (c :: t) = c :: t := by
    rw [stripLeadQuote, if_neg (by rw [hq]; exact Bool.false_ne_true)]
  obtain ⟨r1, h1, hr1⟩ := stripTrailQuote_decomp (c :: t)
  obtain ⟨t1, ht1⟩ := cons_of_decomp isQuoteChar c t _ r1 h1 hr1 hq
  have htrimL : trimLeft (c :: t1) = c :: t1 := by
    rw [trimLeft, List.dropWhile_cons, if_neg (by rw [hsp]; exact Bool.false_ne_true)]
  obtain ⟨r2, h2, hr2⟩ := trimRight_decomp (c :: t1)
  obtain ⟨t2, ht2⟩ := cons_of_decomp isSpaceChar c t1 _ r2 h2 hr2 hsp
  obtain ⟨r3, h3, hr3⟩ := dropTrailPunct_decomp (c :: t2)
  obtain ⟨t3, ht3⟩ := cons_of_decomp isPunctTail c t2 _ r3 h3 hr3 hpu
  refine ⟨t3, r3 ++ r2 ++ r1, ?_, ?_, ?_⟩
  · rw [cleanEndpoint, hlead, ht1, jsTrim, htrimL, ht2, ht3]
  · calc c :: t = (c :: t1) ++ r1 := by rw [← ht1]; exact h1
      _ = ((c :: t2) ++ r2) ++ r1 := by rw [← ht2, ← h2]
      _ = (((c :: t3) ++ r3) ++ r2) ++ r1 := by rw [← ht3, ← h3]
      _ = (c :: t3) ++ (r3 ++ r2 ++ r1) := by simp [List.append_assoc]
  · intro x hx
    rcases List.mem_append.1 hx with hx | hx
    · rcases List.mem_append.1 hx with hx | hx
      · have := hr3 x hx
        simp [removableChar, this]
      · have := hr2 x hx
        simp [removableChar, this]
    · have := hr1 x hx
      simp [removableChar, this]

/-- A prefix of the candidate ending in a character no pass can remove
survives `cleanEndpoint`. -/
lemma clean_keeps_prefix (c : Char) (t p : List Char)
    (hq : isQuoteChar c = false) (hsp : isSpaceChar c = false)
    (hpu : isPunctTail c = false)
    (hp : p <+: c :: t) (hpne : p ≠ [])
    (hlast : removableChar (p.getLast hpne) = false) :
    p <+: cleanEndpoint (c :: t) := by
  obtain ⟨t', r, hcl, hdec, hr⟩ := clean_decomp c t hq hsp hpu
  have hcp : cleanEndpoint (c :: t) <+: c :: t := by
    rw [hcl]
    exact ⟨r, hdec.symm⟩
  by_cases hle : p.length ≤ (cleanEndpoint (c :: t)).length
  · exact List.prefix_of_prefix_length_le hp hcp hle
  · exfalso
    have hclep : cleanEndpoint (c :: t) <+: p :=
      List.prefix_of_prefix_length_le hcp hp (by omega)
    obtain ⟨q, hqe⟩ := hclep
    have hqne : q ≠ [] := by
      intro h
      rw [h, List.append_nil] at hqe
      rw [← hqe] at hle
      omega
    have hlst : p.getLast hpne ∈ q := by
      have h1 : p.getLast? = some (p.getLast hpne) :=
        List.getLast?_eq_getLast_of_ne_nil hpne
      have h2 : p.getLast? = q.getLast? := by
        rw [← hqe]
        exact List.getLast?_append_of_ne_nil _ hqne
      have h3 : q.getLast? = some (q.getLast hqne) :=
        List.getLast?_eq_getLast_of_ne_nil hqne
      rw [h2, h3] at h1
      injection h1 with h1
      rw [← h1]
      exact List.getLast_mem hqne
    obtain ⟨rest, hrest⟩ := hp
    have hall : cleanEndpoint (c :: t) ++ (q ++ rest) =
        cleanEndpoint (c :: t) ++ r := by
      rw [← List.append_assoc, hqe, hrest, hcl]
      exact hdec
    have hqr : q ++ rest = r := List.append_cancel_left hall
    have hmem : p.getLast hpne ∈ r := by
      rw [← hqr]
      exact List.mem_append_left rest hlst
    have := hr _ hmem
    rw [hlast] at this
    exact absurd this (by simp)

/-- An occurrence of a wholly non-removable pattern inside `a` survives
when a removable suffix `b` is cut off `a ++ b`. -/
lemma infix_of_append_removable (a b k : List Char) (hk : k <:+: a ++ b)
    (hkne : k ≠ []) (hknr : ∀ c ∈ k, removableChar c = false)
    (hbr : ∀ c ∈ b, removableChar c = true) : k <:+: a := by
  obtain ⟨x, y, hxy⟩ := hk
  by_cases hn : x.length + k.length ≤ a.length
  · have ha : a = (x ++ (k ++ y)).take a.length := by
      rw [← List.append_assoc, hxy]
      simp
    rw [List.take_append_eq_append_take] at ha
    rw [List.take_of_length_le (by omega : x.length ≤ a.length)] at ha
    rw [List.take_append_eq_append_take] at ha
    rw [List.take_of_length_le
      (by omega : k.length ≤ a.length - x.length)] at ha
    exact ⟨x, (List.take (a.length - x.length - k.length) y), by
      rw [← List.append_assoc] at ha
      exact ha.symm⟩
  · exfalso
    have hksplit : k.dropLast ++ [k.getLast hkne] = k :=
      List.dropLast_append_getLast hkne
    have hb : b = (x ++ k ++ y).drop a.length := by
      rw [hxy, List.drop_left]
    rw [← hksplit] at hb
    have hrw : x ++ (k.dropLast ++ [k.getLast hkne]) ++ y =
        (x ++ k.dropLast) ++ ([k.getLast hkne] ++ y) := by
      simp [List.append_assoc]
    rw [hrw] at hb
    rw [List.drop_append_eq_append_drop] at hb
    have hk1 : 0 < k.length := List.length_pos.2 hkne
    have hlen : (x ++ k.dropLast).length = x.length + k.length - 1 := by
      rw [List.length_append, List.length_dropLast]
      omega
    have hz : a.length - (x ++ k.dropLast).length = 0 := by
      rw [hlen]
      omega
    rw [hz, List.drop_zero] at hb
    have hmem : k.getLast hkne ∈ b := by
      rw [hb]
      exact List.mem_append_right _
        (List.mem_append_left _ (List.mem_singleton.2 rfl))
    have h1 := hbr _ hmem
    have h2 := hknr _ (List.getLast_mem hkne)
    rw [h2] at h1
    exact absurd h1 (by simp)

lemma bor_iff (a b : Bool) : (a || b) = true ↔ a = true ∨ b = true := by
  simp

lemma band_iff (a b : Bool) : (a && b) = true ↔ a = true ∧ b = true := by
  simp

lemma headclass_nonremovable (c : Char)
    (h : (isAlnum c || isSlash c) = true) : removableChar c = false := by
  simp only [isAlnum, isAsciiLetter, isDigitChar, isSlash, Bool.or_eq_true,
    Bool.and_eq_true, decide_eq_true_eq] at h
  simp only [removableChar, isQuoteChar, isSpaceChar, isPunctTail,
    Bool.or_eq_false_iff, decide_eq_false_iff_not]
  omega

lemma pathclass2_nonremovable (c : Char) (h : inPathClass2 c = true) :
    removableChar c = false := by
  simp only [inPathClass2, isAlnum, isAsciiLetter, isDigitChar,
    Bool.or_eq_true, Bool.and_eq_true, decide_eq_true_eq] at h
  simp only [removableChar, isQuoteChar, isSpaceChar, isPunctTail,
    Bool.or_eq_false_iff, decide_eq_false_iff_not]
  omega

lemma letter_nonremovable (c : Char) (h : isAsciiLetter c = true) :
    removableChar c = false := by
  simp only [isAsciiLetter, Bool.or_eq_true, Bool.and_eq_true,
    decide_eq_true_eq] at h
  simp only [removableChar, isQuoteChar, isSpaceChar, isPunctTail,
    Bool.or_eq_false_iff, decide_eq_false_iff_not]
  omega

lemma toLowerChar_of_removable (c : Char) (h : removableChar c = true) :
    toLowerChar c = c := by
  simp only [removableChar, isQuoteChar, isSpaceChar, isPunctTail,
    Bool.or_eq_true, decide_eq_true_eq] at h
  unfold toLowerChar
  rw [if_neg (by omega)]

lemma letter_of_toLowerChar (c : Char)
    (h : isAsciiLetter (toLowerChar c) = true) : isAsciiLetter c = true := by
  unfold toLowerChar at h
  by_cases hc : 65 ≤ c.toNat ∧ c.toNat ≤ 90
  · simp only [isAsciiLetter, Bool.or_eq_true, Bool.and_eq_true,
      decide_eq_true_eq]
    omega
  · rw [if_neg hc] at h
    exact h

lemma domainclass_not_slash (c : Char) (h : inDomainClass c = true) :
    isSlash c = false := by
  simp only [inDomainClass, isAlnum, isAsciiLetter, isDigitChar,
    Bool.or_eq_true, Bool.and_eq_true, decide_eq_true_eq] at h
  simp only [isSlash, decide_eq_false_iff_not]
  omega

lemma hasSlashAlnum_iff (l : List Char) :
    hasSlashAlnum l = true ↔
      ∃ x y sl c, l = x ++ sl :: c :: y ∧ isSlash sl = true ∧
        isAlnum c = true := by
  induction l with
  | nil =>
      simp only [hasSlashAlnum]
      constructor
      · intro h; exact absurd h (by simp)
      · rintro ⟨x, y, sl, c, h, -, -⟩
        have := congrArg List.length h
        simp only [List.length_nil, List.length_append,
          List.length_cons] at this
        omega
  | cons c1 rest ih =>
      cases rest with
      | nil =>
          simp only [hasSlashAlnum]
          constructor
          · intro h; exact absurd h (by simp)
          · rintro ⟨x, y, sl, c, h, -, -⟩
            have := congrArg List.length h
            simp [List.length_append] at this
            omega
      | cons c2 rest2 =>
          rw [hasSlashAlnum]
          constructor
          · intro h
            rcases (bor_iff _ _).1 h with h | h
            · obtain ⟨h1, h2⟩ := (band_iff _ _).1 h
              exact ⟨[], rest2, c1, c2, rfl, h1, h2⟩
            · obtain ⟨x, y, sl, c, he, hs, hc⟩ := ih.1 h
              exact ⟨c1 :: x, y, sl, c, by rw [he]; rfl, hs, hc⟩
          · rintro ⟨x, y, sl, c, he, hs, hc⟩
            cases x with
            | nil =>
                rw [List.nil_append] at he
                injection he with he1 he2
                injection he2 with he2 he3
                rw [bor_iff]
                left
                rw [he1, he2]
                simp [hs, hc]
            | cons a x' =>
                rw [List.cons_append] at he
                injection he with he1 he2
                rw [bor_iff]
                right
                exact ih.2 ⟨x', y, sl, c, he2, hs, hc⟩

lemma scanDomainLike_iff (l : List Char) :
    scanDomainLike l = true ↔
      ∃ run sl t, l = run ++ sl :: t ∧ isSlash sl = true ∧
        ∀ x ∈ run, inDomainClass x = true := by
  induction l with
  | nil =>
      simp only [scanDomainLike]
      constructor
      · intro h; exact absurd h (by simp)
      · rintro ⟨run, sl, t, h, -, -⟩
        have := congrArg List.length h
        simp only [List.length_nil, List.length_append,
          List.length_cons] at this
        omega
  | cons c rest ih =>
      rw [scanDomainLike]
      by_cases hs : isSlash c = true
      · rw [if_pos hs]
        constructor
        · intro _
          exact ⟨[], c, rest, rfl, hs, by simp⟩
        · intro _; rfl
      · rw [if_neg (by rw [Bool.not_eq_true] at hs ⊢; exact hs)]
        constructor
        · intro h
          obtain ⟨h1, h2⟩ := (band_iff _ _).1 h
          obtain ⟨run, sl, t, he, hsl, hrun⟩ := ih.1 h2
          refine ⟨c :: run, sl, t, by rw [he]; rfl, hsl, ?_⟩
          intro x hx
          rcases List.mem_cons.1 hx with hx | hx
          · rw [hx]; exact h1
          · exact hrun x hx
        · rintro ⟨run, sl, t, he, hsl, hrun⟩
          cases run with
          | nil =>
              rw [List.nil_append] at he
              injection he with he1 he2
              rw [he1] at hs
              exact absurd hsl hs
          | cons a run' =>
              rw [List.cons_append] at he
              injection he with he1 he2
              rw [band_iff]
              refine ⟨by rw [he1]; exact hrun a (List.mem_cons_self _ _), ?_⟩
              exact ih.2 ⟨run', sl, t, he2, hsl,
                fun x hx => hrun x (List.mem_cons_of_mem _ hx)⟩

lemma scanPath_iff (l : List Char) :
    scanPath l = true ↔
      ∃ run sl d t, l = run ++ sl :: d :: t ∧ isSlash sl = true ∧
        inPathClass2 d = true ∧ ∀ x ∈ run, inDomainClass x = true := by
  induction l with
  | nil =>
      simp only [scanPath]
      constructor
      · intro h; exact absurd h (by simp)
      · rintro ⟨run, sl, d, t, h, -, -, -⟩
        have := congrArg List.length h
        simp only [List.length_nil, List.length_append,
          List.length_cons] at this
        omega
  | cons c rest ih =>
      rw [scanPath.eq_def]
      simp only []
      by_cases hs : isSlash c = true
      · rw [if_pos hs]
        constructor
        · intro h
          cases rest with
          | nil => exact absurd h (by simp)
          | cons d t => exact ⟨[], c, d, t, rfl, hs, h, by simp⟩
        · rintro ⟨run, sl, d, t, he, hsl, hd, hrun⟩
          cases run with
          | nil =>
              rw [List.nil_append] at he
              injection he with he1 he2
              rw [he2]
              exact hd
          | cons a run' =>
              rw [List.cons_append] at he
              injection he with he1 he2
              have := hrun a (List.mem_cons_self _ _)
              rw [← he1] at this
              rw [domainclass_not_slash c this] at hs
              exact absurd hs (by simp)
      · rw [if_neg (by rw [Bool.not_eq_true] at hs ⊢; exact hs)]
        constructor
        · intro h
          obtain ⟨h1, h2⟩ := (band_iff _ _).1 h
          obtain ⟨run, sl, d, t, he, hsl, hd, hrun⟩ := ih.1 h2
          refine ⟨c :: run, sl, d, t, by rw [he]; rfl, hsl, hd, ?_⟩
          intro x hx
          rcases List.mem_cons.1 hx with hx | hx
          · rw [hx]; exact h1
          · exact hrun x hx
        · rintro ⟨run, sl, d, t, he, hsl, hd, hrun⟩
          cases run with
          | nil =>
              rw [List.nil_append] at he
              injection he with he1 he2
              rw [he1] at hs
              exact absurd hsl hs
          | cons a run' =>
              rw [List.cons_append] at he
              injection he with he1 he2
              rw [band_iff]
              refine ⟨by rw [he1]; exact hrun a (List.mem_cons_self _ _), ?_⟩
              exact ih.2 ⟨run', sl, d, t, he2, hsl, hd,
                fun x hx => hrun x (List.mem_cons_of_mem _ hx)⟩

lemma containsSeq_iff (k l : List Char) :
    containsSeq k l = true ↔ k <:+: l := by
  induction l with
  | nil =>
      rw [containsSeq]
      constructor
      · intro h
        rw [List.isEmpty_iff] at h
        rw [h]
      · intro h
        have hk : k = [] := List.eq_nil_of_infix_nil h
        rw [hk]
        rfl
  | cons c rest ih =>
      rw [containsSeq]
      constructor
      · intro h
        rcases (bor_iff _ _).1 h with h | h
        · exact (List.isPrefixOf_iff_prefix.1 h).isInfix
        · exact List.infix_cons (ih.1 h)
      · intro h
        rcases List.infix_cons_iff.1 h with h | h
        · exact (bor_iff _ _).2 (Or.inl (List.isPrefixOf_iff_prefix.2 h))
        · exact (bor_iff _ _).2 (Or.inr (ih.2 h))

/-- When neither end of the candidate is strippable, `cleanEndpoint` is
the identity. -/
lemma clean_id (c : Char) (t : List Char) (d : Char) (t1 : List Char)
    (hq : isQuoteChar c = false) (hsp : isSpaceChar c = false)
    (hrev : (c :: t).reverse = d :: t1)
    (hq2 : isQuoteChar d = false) (hsp2 : isSpaceChar d = false)
    (hpu2 : isPunctTail d = false) :
    cleanEndpoint (c :: t) = c :: t := by
  have hlead : stripLeadQuote (c :: t) = c :: t := by
    rw [stripLeadQuote, if_neg (by rw [hq]; exact Bool.false_ne_true)]
  have htrail : stripTrailQuote (c :: t) = c :: t := by
    rw [stripTrailQuote, hrev]
    simp only []
    rw [if_neg (by rw [hq2]; exact Bool.false_ne_true)]
  have htrimL : trimLeft (c :: t) = c :: t := by
    rw [trimLeft, List.dropWhile_cons,
      if_neg (by rw [hsp]; exact Bool.false_ne_true)]
  have htrimR : trimRight (c :: t) = c :: t := by
    rw [trimRight, hrev, List.dropWhile_cons,
      if_neg (by rw [hsp2]; exact Bool.false_ne_true), ← hrev,
      List.reverse_reverse]
  have hpunct : dropTrailPunct (c :: t) = c :: t := by
    rw [dropTrailPunct, hrev, List.dropWhile_cons,
      if_neg (by rw [hpu2]; exact Bool.false_ne_true), ← hrev,
      List.reverse_reverse]
  rw [cleanEndpoint, hlead, htrail, jsTrim, htrimL, htrimR, hpunct]

lemma exSingleLetter_false_of_len (l : List Char) (h : 2 ≤ l.length) :
    exSingleLetter l = false := by
  cases l with
  | nil => rfl
  | cons a t =>
      cases t with
      | nil => simp at h
      | cons b t' => rfl

/-- A candidate that starts with an alphanumeric or `/`, contains a
slash, and has length at least two, triggers none of the exclusion
patterns. -/
lemma invalidAny_false_of_slash (l : List Char) (c0 : Char)
    (t0 : List Char) (hshape : l = c0 :: t0)
    (hhead : (isAlnum c0 || isSlash c0) = true) (hlen : 2 ≤ l.length)
    (d : Char) (hd : d ∈ l) (hds : isSlash d = true) :
    invalidAny l = false := by
  have hd47 : d.toNat = 47 := by
    simpa [isSlash] using hds
  have hnodig : exDigitsOnly l = false := by
    cases hall : l.all isDigitChar with
    | false => simp [exDigitsOnly, hall]
    | true =>
        exfalso
        have := List.all_eq_true.1 hall d hd
        simp [isDigitChar] at this
        omega
  have hnoshort : exShortLetters l = false := by
    cases hall : l.all isAsciiLetter with
    | false => simp [exShortLetters, hall]
    | true =>
        exfalso
        have := List.all_eq_true.1 hall d hd
        simp [isAsciiLetter] at this
        omega
  have hnows : exWhitespaceOnly l = false := by
    cases hall : l.all isSpaceChar with
    | false => simp [exWhitespaceOnly, hall]
    | true =>
        exfalso
        have := List.all_eq_true.1 hall d hd
        simp [isSpaceChar] at this
        omega
  have hnopunct : exPunctOnly l = false := by
    cases hall : l.all isPunct8 with
    | false => simp [exPunctOnly, hall]
    | true =>
        exfalso
        have := List.all_eq_true.1 hall d hd
        simp [isPunct8] at this
        omega
  have hdlow : toLowerChar d = d := by
    unfold toLowerChar
    rw [if_neg (by omega)]
  have hnobool : exBoolWord l = false := by
    cases hmemb : exBoolWord l with
    | false => rfl
    | true =>
        exfalso
        unfold exBoolWord at hmemb
        have hm : l.map toLowerChar ∈ boolWords := by
          simpa using hmemb
        have hdm : d ∈ l.map toLowerChar := by
          rw [← hdlow]
          exact List.mem_map_of_mem toLowerChar hd
        have hfact : ∀ w ∈ boolWords, ∀ x ∈ w, x.toNat ≠ 47 := by decide
        exact hfact _ hm d hdm hd47
  have hnojs : exJsKeyword l = false := by
    cases hmemb : exJsKeyword l with
    | false => rfl
    | true =>
        exfalso
        unfold exJsKeyword at hmemb
        have hm : l.map toLowerChar ∈ jsKeywords := by
          simpa using hmemb
        have hdm : d ∈ l.map toLowerChar := by
          rw [← hdlow]
          exact List.mem_map_of_mem toLowerChar hd
        have hfact : ∀ w ∈ jsKeywords, ∀ x ∈ w, x.toNat ≠ 47 := by decide
        exact hfact _ hm d hdm hd47
  have hnospec : exStartsSpecial l = false := by
    rw [hshape]
    simp [exStartsSpecial, hhead]
  unfold invalidAny
  rw [exSingleLetter_false_of_len l hlen, hnodig, hnospec, hnobool,
    hnoshort, hnojs, hnows, hnopunct]
  rfl

/-- A candidate that starts with an alphanumeric or `/` and contains an
endpoint keyword (case-insensitively) triggers none of the exclusion
patterns, and is at least three characters long. -/
lemma invalidAny_false_of_keyword (l : List Char) (c0 : Char)
    (t0 : List Char) (hshape : l = c0 :: t0)
    (hhead : (isAlnum c0 || isSlash c0) = true)
    (k : List Char) (hk : k ∈ endpointKeywords)
    (hinf : containsSeq k (l.map toLowerChar) = true) :
    invalidAny l = false ∧ 2 ≤ l.length := by
  have hkfacts : ∀ k' ∈ endpointKeywords, 3 ≤ k'.length ∧
      ∀ c ∈ k', isAsciiLetter c = true := by decide
  have hkinf : k <:+: l.map toLowerChar := (containsSeq_iff _ _).1 hinf
  have hklen : 3 ≤ k.length := (hkfacts k hk).1
  have hlen : 3 ≤ l.length := by
    have := hkinf.length_le
    rw [List.length_map] at this
    omega
  obtain ⟨kc, krest, hke⟩ : ∃ kc krest, k = kc :: krest := by
    cases k with
    | nil => simp at hklen
    | cons a b => exact ⟨a, b, rfl⟩
  have hkcl : isAsciiLetter kc = true :=
    (hkfacts k hk).2 kc (by rw [hke]; exact List.mem_cons_self _ _)
  have hkcm : kc ∈ l.map toLowerChar := by
    apply hkinf.subset
    rw [hke]
    exact List.mem_cons_self _ _
  obtain ⟨c', hc'm, hc'e⟩ := List.mem_map.1 hkcm
  have hc'l : isAsciiLetter c' = true :=
    letter_of_toLowerChar c' (by rw [hc'e]; exact hkcl)
  have hcl' : (65 ≤ c'.toNat ∧ c'.toNat ≤ 90) ∨
      (97 ≤ c'.toNat ∧ c'.toNat ≤ 122) := by
    simpa [isAsciiLetter] using hc'l
  have hnodig : exDigitsOnly l = false := by
    cases hall : l.all isDigitChar with
    | false => simp [exDigitsOnly, hall]
    | true =>
        exfalso
        have := List.all_eq_true.1 hall c' hc'm
        simp [isDigitChar] at this
        omega
  have hnoshort : exShortLetters l = false := by
    unfold exShortLetters
    have : ¬ l.length ≤ 2 := by omega
    simp [this]
  have hnows : exWhitespaceOnly l = false := by
    cases hall : l.all isSpaceChar with
    | false => simp [exWhitespaceOnly, hall]
    | true =>
        exfalso
        have := List.all_eq_true.1 hall c' hc'm
        simp [isSpaceChar] at this
        omega
  have hnopunct : exPunctOnly l = false := by
    cases hall : l.all isPunct8 with
    | false => simp [exPunctOnly, hall]
    | true =>
        exfalso
        have := List.all_eq_true.1 hall c' hc'm
        simp [isPunct8] at this
        omega
  have hnobool : exBoolWord l = false := by
    cases hmemb : exBoolWord l with
    | false => rfl
    | true =>
        exfalso
        unfold exBoolWord at hmemb
        have hm : l.map toLowerChar ∈ boolWords := by
          simpa using hmemb
        have hfact : ∀ w ∈ boolWords, ∀ k' ∈ endpointKeywords,
            containsSeq k' w = false := by decide
        have hcontra := hfact _ hm k hk
        rw [hinf] at hcontra
        exact absurd hcontra (by simp)
  have hnojs : exJsKeyword l = false := by
    cases hmemb : exJsKeyword l with
    | false => rfl
    | true =>
        exfalso
        unfold exJsKeyword at hmemb
        have hm : l.map toLowerChar ∈ jsKeywords := by
          simpa using hmemb
        have hfact : ∀ w ∈ jsKeywords, ∀ k' ∈ endpointKeywords,
            containsSeq k' w = false := by decide
        have hcontra := hfact _ hm k hk
        rw [hinf] at hcontra
        exact absurd hcontra (by simp)
  have hnospec : exStartsSpecial l = false := by
    rw [hshape]
    simp [exStartsSpecial, hhead]
  refine ⟨?_, by omega⟩
  unfold invalidAny
  rw [exSingleLetter_false_of_len l (by omega), hnodig, hnospec, hnobool,
    hnoshort, hnojs, hnows, hnopunct]
  rfl

lemma bor_false_iff (a b : Bool) : (a || b) = false ↔ a = false ∧ b = false := by
  cases a <;> cases b <;> simp

lemma getLast_concat_eq (l : List Char) (a : Char) (h : l ++ [a] ≠ []) :
    (l ++ [a]).getLast h = a := by
  have h1 : (l ++ [a]).getLast? = some a := List.getLast?_concat _
  have h2 : (l ++ [a]).getLast? = some ((l ++ [a]).getLast h) :=
    List.getLast?_eq_getLast_of_ne_nil h
  rw [h1] at h2
  injection h2 with h2
  exact h2.symm

lemma isValidEndpoint_of_parts (l : List Char) (hlen : 2 ≤ l.length)
    (hinv : invalidAny l = false) (hval : validAny l = true) :
    isValidEndpoint l = true := by
  unfold isValidEndpoint
  rw [if_neg (by omega : ¬ l.length < 2)]
  rw [if_neg (by rw [hinv]; exact Bool.false_ne_true)]
  exact hval

/-- C9 amended: a candidate that passes the validity predicate through
any inclusion rule other than the template-placeholder rule still passes
after `cleanEndpoint`.  (A candidate valid *only* through the
placeholder rule can lose its closing `}` to the trailing-junk strip —
see the counterexample.) -/
theorem cleanEndpoint_preserves_validity (s : List Char)
    (hv : isValidEndpoint s = true) (ho : validOther s = true) :
    isValidEndpoint (cleanEndpoint s) = true := by
  have hlen : 2 ≤ s.length := by
    by_contra hcon
    unfold isValidEndpoint at hv
    rw [if_pos (by omega)] at hv
    exact absurd hv (by simp)
  have hinv : invalidAny s = false := by
    cases hx : invalidAny s with
    | false => rfl
    | true =>
        exfalso
        unfold isValidEndpoint at hv
        rw [if_neg (by omega : ¬ s.length < 2), if_pos hx] at hv
        exact absurd hv (by simp)
  obtain ⟨c0, t0, hshape⟩ : ∃ c0 t0, s = c0 :: t0 := by
    cases s with
    | nil => simp at hlen
    | cons a b => exact ⟨a, b, rfl⟩
  have hhead : (isAlnum c0 || isSlash c0) = true := by
    have h3 : exStartsSpecial s = false := by
      cases hx : exStartsSpecial s with
      | false => rfl
      | true =>
          exfalso
          unfold invalidAny at hinv
          rw [hx] at hinv
          simp at hinv
    rw [hshape] at h3
    unfold exStartsSpecial at h3
    simp only [] at h3
    cases hb : (isAlnum c0 || isSlash c0) with
    | true => rfl
    | false =>
        exfalso
        rw [hb] at h3
        simp at h3
  have hrem : removableChar c0 = false := headclass_nonremovable c0 hhead
  obtain ⟨hqs0, hpu0⟩ := (bor_false_iff _ _).1 hrem
  obtain ⟨hq0, hsp0⟩ := (bor_false_iff _ _).1 hqs0
  obtain ⟨t', r, hcl, hdec, hr⟩ := clean_decomp c0 t0 hq0 hsp0 hpu0
  have hclean : cleanEndpoint s = c0 :: t' := by rw [hshape]; exact hcl
  have hsd : s = cleanEndpoint s ++ r := by
    rw [hshape, hcl]
    exact hdec
  simp only [validOther, bor_iff] at ho
  rcases ho with (((((((h | h) | h) | h) | h) | h) | h) | h)
  · -- incSlashStart
    rw [hshape] at h
    obtain ⟨c2, t0', ht0⟩ : ∃ c2 t0', t0 = c2 :: t0' := by
      cases t0 with
      | nil => exact absurd h (by simp [incSlashStart])
      | cons a b => exact ⟨a, b, rfl⟩
    rw [ht0] at h
    unfold incSlashStart at h
    obtain ⟨hs0, hal2⟩ := (band_iff _ _).1 h
    have hpre : [c0, c2] <+: c0 :: t0 := by
      rw [ht0]
      exact ⟨t0', rfl⟩
    have hlast : removableChar ([c0, c2].getLast (by simp)) = false := by
      have hgl : [c0, c2].getLast (by simp) = c2 := rfl
      rw [hgl]
      exact headclass_nonremovable c2 ((bor_iff _ _).2 (Or.inl hal2))
    obtain ⟨u, hu⟩ :=
      clean_keeps_prefix c0 t0 [c0, c2] hq0 hsp0 hpu0 hpre (by simp) hlast
    have hcs : cleanEndpoint s = c0 :: c2 :: u := by
      rw [hshape, ← hu]
      rfl
    have hval : validAny (cleanEndpoint s) = true := by
      have hi : incSlashStart (cleanEndpoint s) = true := by
        rw [hcs]
        unfold incSlashStart
        simp [hs0, hal2]
      unfold validAny
      simp [hi]
    have hlen2 : 2 ≤ (cleanEndpoint s).length := by
      rw [hcs]
      simp only [List.length_cons]
      omega
    refine isValidEndpoint_of_parts _ hlen2 ?_ hval
    exact invalidAny_false_of_slash _ c0 (c2 :: u) hcs hhead hlen2 c0
      (by rw [hcs]; exact List.mem_cons_self _ _) hs0
  · -- incHttpUrl
    unfold incHttpUrl at h
    rcases (bor_iff _ _).1 h with h' | h'
    · have hp : String.data "http://" <+: s := List.isPrefixOf_iff_prefix.1 h'
      rw [hshape] at hp
      obtain ⟨u, hu⟩ := clean_keeps_prefix c0 t0 _ hq0 hsp0 hpu0 hp
        (by decide) (by decide)
      have hcs : cleanEndpoint s = String.data "http://" ++ u := by
        rw [hshape, ← hu]
      have hval : validAny (cleanEndpoint s) = true := by
        have hi : incHttpUrl (cleanEndpoint s) = true := by
          unfold incHttpUrl
          have hpp : (String.data "http://").isPrefixOf (cleanEndpoint s)
              = true := by
            rw [hcs]
            exact List.isPrefixOf_iff_prefix.2 ⟨u, rfl⟩
          simp [hpp]
        unfold validAny
        simp [hi]
      have hlen2 : 2 ≤ (cleanEndpoint s).length := by
        rw [hcs, List.length_append,
          (by decide : (String.data "http://").length = 7)]
        omega
      refine isValidEndpoint_of_parts _ hlen2 ?_ hval
      refine invalidAny_false_of_slash _ c0 t' hclean hhead hlen2 '/' ?_
        (by decide)
      rw [hcs]
      exact List.mem_append_left _ (by decide)
    · have hp : String.data "https://" <+: s := List.isPrefixOf_iff_prefix.1 h'
      rw [hshape] at hp
      obtain ⟨u, hu⟩ := clean_keeps_prefix c0 t0 _ hq0 hsp0 hpu0 hp
        (by decide) (by decide)
      have hcs : cleanEndpoint s = String.data "https://" ++ u := by
        rw [hshape, ← hu]
      have hval : validAny (cleanEndpoint s) = true := by
        have hi : incHttpUrl (cleanEndpoint s) = true := by
          unfold incHttpUrl
          have hpp : (String.data "https://").isPrefixOf (cleanEndpoint s)
              = true := by
            rw [hcs]
            exact List.isPrefixOf_iff_prefix.2 ⟨u, rfl⟩
          simp [hpp]
        unfold validAny
        simp [hi]
      have hlen2 : 2 ≤ (cleanEndpoint s).length := by
        rw [hcs, List.length_append,
          (by decide : (String.data "https://").length = 8)]
        omega
      refine isValidEndpoint_of_parts _ hlen2 ?_ hval
      refine invalidAny_false_of_slash _ c0 t' hclean hhead hlen2 '/' ?_
        (by decide)
      rw [hcs]
      exact List.mem_append_left _ (by decide)
  · -- incWsUrl
    unfold incWsUrl at h
    rcases (bor_iff _ _).1 h with h' | h'
    · have hp : String.data "ws://" <+: s := List.isPrefixOf_iff_prefix.1 h'
      rw [hshape] at hp
      obtain ⟨u, hu⟩ := clean_keeps_prefix c0 t0 _ hq0 hsp0 hpu0 hp
        (by decide) (by decide)
      have hcs : cleanEndpoint s = String.data "ws://" ++ u := by
        rw [hshape, ← hu]
      have hval : validAny (cleanEndpoint s) = true := by
        have hi : incWsUrl (cleanEndpoint s) = true := by
          unfold incWsUrl
          have hpp : (String.data "ws://").isPrefixOf (cleanEndpoint s)
              = true := by
            rw [hcs]
            exact List.isPrefixOf_iff_prefix.2 ⟨u, rfl⟩
          simp [hpp]
        unfold validAny
        simp [hi]
      have hlen2 : 2 ≤ (cleanEndpoint s).length := by
        rw [hcs, List.length_append,
          (by decide : (String.data "ws://").length = 5)]
        omega
      refine isValidEndpoint_of_parts _ hlen2 ?_ hval
      refine invalidAny_false_of_slash _ c0 t' hclean hhead hlen2 '/' ?_
        (by decide)
      rw [hcs]
      exact List.mem_append_left _ (by decide)
    · have hp : String.data "wss://" <+: s := List.isPrefixOf_iff_prefix.1 h'
      rw [hshape] at hp
      obtain ⟨u, hu⟩ := clean_keeps_prefix c0 t0 _ hq0 hsp0 hpu0 hp
        (by decide) (by decide)
      have hcs : cleanEndpoint s = String.data "wss://" ++ u := by
        rw [hshape, ← hu]
      have hval : validAny (cleanEndpoint s) = true := by
        have hi : incWsUrl (cleanEndpoint s) = true := by
          unfold incWsUrl
          have hpp : (String.data "wss://").isPrefixOf (cleanEndpoint s)
              = true := by
            rw [hcs]
            exact List.isPrefixOf_iff_prefix.2 ⟨u, rfl⟩
          simp [hpp]
        unfold validAny
        simp [hi]
      have hlen2 : 2 ≤ (cleanEndpoint s).length := by
        rw [hcs, List.length_append,
          (by decide : (String.data "wss://").length = 6)]
        omega
      refine isValidEndpoint_of_parts _ hlen2 ?_ hval
      refine invalidAny_false_of_slash _ c0 t' hclean hhead hlen2 '/' ?_
        (by decide)
      rw [hcs]
      exact List.mem_append_left _ (by decide)
  · -- incExtension: nothing is stripped, the candidate is unchanged
    rw [hshape] at h
    unfold incExtension at h
    rcases hrev : (c0 :: t0).reverse with _ | ⟨d, t1⟩
    · rw [hrev] at h
      exact absurd h (by simp)
    · rw [hrev] at h
      simp only [] at h
      obtain ⟨hald, _⟩ := (band_iff _ _).1 h
      have hremd := headclass_nonremovable d ((bor_iff _ _).2 (Or.inl hald))
      obtain ⟨hqsd, hpud⟩ := (bor_false_iff _ _).1 hremd
      obtain ⟨hqd, hspd⟩ := (bor_false_iff _ _).1 hqsd
      have hid : cleanEndpoint (c0 :: t0) = c0 :: t0 :=
        clean_id c0 t0 d t1 hq0 hsp0 hrev hqd hspd hpud
      rw [hshape, hid, ← hshape]
      exact hv
  · -- hasSlashAlnum
    obtain ⟨x, y, sl, cc, he, hsl, hcc⟩ := (hasSlashAlnum_iff s).1 h
    have hkinf : [sl, cc] <:+: cleanEndpoint s ++ r := by
      rw [← hsd, he]
      exact ⟨x, y, by simp⟩
    have hk2 : [sl, cc] <:+: cleanEndpoint s := by
      refine infix_of_append_removable _ r _ hkinf (by simp) ?_ hr
      intro ch hch
      rcases List.mem_cons.1 hch with hch | hch
      · rw [hch]
        exact headclass_nonremovable sl ((bor_iff _ _).2 (Or.inr hsl))
      · rcases List.mem_cons.1 hch with hch | hch
        · rw [hch]
          exact headclass_nonremovable cc ((bor_iff _ _).2 (Or.inl hcc))
        · simp at hch
    have hval : validAny (cleanEndpoint s) = true := by
      have hi : hasSlashAlnum (cleanEndpoint s) = true := by
        rw [hasSlashAlnum_iff]
        obtain ⟨x2, y2, hxy⟩ := hk2
        exact ⟨x2, y2, sl, cc, by rw [← hxy]; simp, hsl, hcc⟩
      unfold validAny
      simp [hi]
    have hlen2 : 2 ≤ (cleanEndpoint s).length := by
      have := hk2.length_le
      simpa using this
    refine isValidEndpoint_of_parts _ hlen2 ?_ hval
    exact invalidAny_false_of_slash _ c0 t' hclean hhead hlen2 sl
      (hk2.subset (by simp)) hsl
  · -- incDomainLike
    rw [hshape] at h
    unfold incDomainLike at h
    obtain ⟨hal0, hscan⟩ := (band_iff _ _).1 h
    obtain ⟨run, sl, t2, he, hsl, hrun⟩ := (scanDomainLike_iff t0).1 hscan
    have hpre : (c0 :: (run ++ [sl])) <+: c0 :: t0 := by
      rw [he]
      exact ⟨t2, by simp⟩
    have hpne : (c0 :: (run ++ [sl])) ≠ [] := by simp
    have hgl : (c0 :: (run ++ [sl])).getLast hpne = sl := by
      have hform : c0 :: (run ++ [sl]) = (c0 :: run) ++ [sl] := by simp
      have h1 : (c0 :: (run ++ [sl])).getLast? = some sl := by
        rw [hform]
        exact List.getLast?_concat _
      have h2 : (c0 :: (run ++ [sl])).getLast? =
          some ((c0 :: (run ++ [sl])).getLast hpne) :=
        List.getLast?_eq_getLast_of_ne_nil hpne
      rw [h1] at h2
      injection h2 with h2
      exact h2.symm
    have hlast : removableChar ((c0 :: (run ++ [sl])).getLast hpne)
        = false := by
      rw [hgl]
      exact headclass_nonremovable sl ((bor_iff _ _).2 (Or.inr hsl))
    obtain ⟨u, hu⟩ :=
      clean_keeps_prefix c0 t0 _ hq0 hsp0 hpu0 hpre hpne hlast
    have hcs : cleanEndpoint s = c0 :: (run ++ sl :: u) := by
      rw [hshape, ← hu]
      simp
    have hval : validAny (cleanEndpoint s) = true := by
      have hi : incDomainLike (cleanEndpoint s) = true := by
        rw [hcs]
        unfold incDomainLike
        rw [band_iff]
        exact ⟨hal0, (scanDomainLike_iff _).2 ⟨run, sl, u, rfl, hsl, hrun⟩⟩
      unfold validAny
      simp [hi]
    have hlen2 : 2 ≤ (cleanEndpoint s).length := by
      rw [hcs]
      simp only [List.length_cons, List.length_append]
      omega
    refine isValidEndpoint_of_parts _ hlen2 ?_ hval
    refine invalidAny_false_of_slash _ c0 (run ++ sl :: u) hcs hhead hlen2
      sl ?_ hsl
    rw [hcs]
    exact List.mem_cons_of_mem _
      (List.mem_append_right _ (List.mem_cons_self _ _))
  · -- incKeyword
    unfold incKeyword at h
    obtain ⟨k, hk, hkc⟩ := List.any_eq_true.1 h
    have hkfacts : ∀ k' ∈ endpointKeywords, 3 ≤ k'.length ∧
        ∀ c ∈ k', isAsciiLetter c = true := by decide
    have hkinf0 : k <:+: (cleanEndpoint s).map toLowerChar ++
        r.map toLowerChar := by
      rw [← List.map_append, ← hsd]
      exact (containsSeq_iff _ _).1 hkc
    have hk2 : k <:+: (cleanEndpoint s).map toLowerChar := by
      refine infix_of_append_removable _ _ _ hkinf0 ?_ ?_ ?_
      · intro hnil
        have := (hkfacts k hk).1
        rw [hnil] at this
        simp at this
      · intro ch hch
        exact letter_nonremovable ch ((hkfacts k hk).2 ch hch)
      · intro ch hch
        obtain ⟨y, hy, hye⟩ := List.mem_map.1 hch
        rw [← hye, toLowerChar_of_removable y (hr y hy)]
        exact hr y hy
    have hcont : containsSeq k ((cleanEndpoint s).map toLowerChar) = true :=
      (containsSeq_iff _ _).2 hk2
    have hval : validAny (cleanEndpoint s) = true := by
      have hi : incKeyword (cleanEndpoint s) = true := by
        unfold incKeyword
        exact List.any_eq_true.2 ⟨k, hk, hcont⟩
      unfold validAny
      simp [hi]
    obtain ⟨hinv2, hlen2⟩ := invalidAny_false_of_keyword (cleanEndpoint s)
      c0 t' hclean hhead k hk hcont
    exact isValidEndpoint_of_parts _ hlen2 hinv2 hval
  · -- incPathLike
    rw [hshape] at h
    unfold incPathLike at h
    obtain ⟨hdc0, hscan⟩ := (band_iff _ _).1 h
    obtain ⟨run, sl, d2, t2, he, hsl, hd2, hrun⟩ := (scanPath_iff t0).1 hscan
    have hpre : (c0 :: (run ++ [sl, d2])) <+: c0 :: t0 := by
      rw [he]
      exact ⟨t2, by simp⟩
    have hpne : (c0 :: (run ++ [sl, d2])) ≠ [] := by simp
    have hgl : (c0 :: (run ++ [sl, d2])).getLast hpne = d2 := by
      have hform : c0 :: (run ++ [sl, d2]) =
          (c0 :: (run ++ [sl])) ++ [d2] := by simp
      have h1 : (c0 :: (run ++ [sl, d2])).getLast? = some d2 := by
        rw [hform]
        exact List.getLast?_concat _
      have h2 : (c0 :: (run ++ [sl, d2])).getLast? =
          some ((c0 :: (run ++ [sl, d2])).getLast hpne) :=
        List.getLast?_eq_getLast_of_ne_nil hpne
      rw [h1] at h2
      injection h2 with h2
      exact h2.symm
    have hlast : removableChar ((c0 :: (run ++ [sl, d2])).getLast hpne)
        = false := by
      rw [hgl]
      exact pathclass2_nonremovable d2 hd2
    obtain ⟨u, hu⟩ :=
      clean_keeps_prefix c0 t0 _ hq0 hsp0 hpu0 hpre hpne hlast
    have hcs : cleanEndpoint s = c0 :: (run ++ sl :: d2 :: u) := by
      rw [hshape, ← hu]
      simp
    have hval : validAny (cleanEndpoint s) = true := by
      have hi : incPathLike (cleanEndpoint s) = true := by
        rw [hcs]
        unfold incPathLike
        rw [band_iff]
        exact ⟨hdc0, (scanPath_iff _).2 ⟨run, sl, d2, u, rfl, hsl, hd2, hrun⟩⟩
      unfold validAny
      simp [hi]
    have hlen2 : 2 ≤ (cleanEndpoint s).length := by
      rw [hcs]
      simp only [List.length_cons, List.length_append]
      omega
    refine isValidEndpoint_of_parts _ hlen2 ?_ hval
    refine invalidAny_false_of_slash _ c0 (run ++ sl :: d2 :: u) hcs hhead
      hlen2 sl ?_ hsl
    rw [hcs]
    exact List.mem_cons_of_mem _
      (List.mem_append_right _ (List.mem_cons_self _ _))

/-- Witness for `cleanEndpoint_preserves_validity` on the candidate
`"/api/users'"` (valid via several non-placeholder rules, trailing
quote stripped by cleaning). -/
theorem cleanEndpoint_preserves_validity_witness :
    isValidEndpoint ("/api/users".data ++ [Char.ofNat 39]) = true ∧
    validOther ("/api/users".data ++ [Char.ofNat 39]) = true ∧
    isValidEndpoint
      (cleanEndpoint ("/api/users".data ++ [Char.ofNat 39])) = true := by
  refine ⟨by decide, by decide, ?_⟩
  exact cleanEndpoint_preserves_validity _ (by decide) (by decide)

/-! ## EndpointExtractor: the full extraction pipeline

`extractEndpoints` runs three passes into one key-addressed `Map` and
deduplicates the values.  The extractor instance carries mutable state
(`this.variables`, cleared at the start of each AST pass, and the unused
`this.endpoints` set), which is made explicit here as `ExtractorState`.

External machinery is embedded as data: `JSContent` carries, besides the
raw text, the match stream the fixed regex catalog produces on it
(`regexMatches`, in category-then-position order), the per-line captures
of the three line-analysis regexes (`lineMatches`), and the esprima
parse result (`ast`, `none` when parsing threw).  All of these are
deterministic functions of the raw bytes, so identical content yields
identical `JSContent`.  Non-string literals are modelled as unresolvable
(`strValue = none`); the string-specific extractor paths skip them.
-/

/-- String wrappers over the `List Char` predicates. -/
def cleanEndpointStr (s : String) : String := String.mk (cleanEndpoint s.data)

/-- `isValidEndpoint` on a `String`. -/
def isValidEndpointStr (s : String) : Bool := isValidEndpoint s.data

/-- `s.includes(sub)`. -/
def containsStr (s sub : String) : Bool := containsSeq sub.data s.data

/-- `s.toLowerCase()` (ASCII). -/
def toLowerStr (s : String) : String := String.mk (s.data.map toLowerChar)

/-- ASCII upper-casing of one character. -/
def toUpperChar (c : Char) : Char :=
  if 97 ≤ c.toNat ∧ c.toNat ≤ 122 then Char.ofNat (c.toNat - 32) else c

/-- `s.toUpperCase()` (ASCII). -/
def toUpperStr (s : String) : String := String.mk (s.data.map toUpperChar)

/-- `s.startsWith(p)`. -/
def startsWithStr (s p : String) : Bool := p.data.isPrefixOf s.data

/-- `content.slice(a, b)`. -/
def sliceStr (s : String) (a b : Nat) : String :=
  String.mk ((s.data.drop a).take (b - a))

/-- Collapse whitespace runs to single spaces (`replace(/\s+/g, ' ')`). -/
def squeezeSpaces : List Char → List Char
  | [] => []
  | [c] => [if isSpaceChar c then ' ' else c]
  | c1 :: c2 :: rest =>
      if isSpaceChar c1 && isSpaceChar c2 then squeezeSpaces (c2 :: rest)
      else (if isSpaceChar c1 then ' ' else c1) :: squeezeSpaces (c2 :: rest)

/-- `trim()` on a `String`. -/
def jsTrimStr (s : String) : String := String.mk (jsTrim s.data)

/-- `extractContext(content, index)`: ±50 characters, whitespace
collapsed, trimmed. -/
def extractContext (content : String) (index : Nat) : String :=
  let contextStart := index - 50
  let contextEnd := min content.data.length (index + 50)
  jsTrimStr (String.mk (squeezeSpaces
    (sliceStr content contextStart contextEnd).data))

/-- The HTTP verb vocabulary scanned for by `detectHttpMethod`. -/
def httpMethods : List String :=
  ["get", "post", "put", "patch", "delete", "head", "options"]

/-- `detectHttpMethod(content, index)`: first verb contained in the
±100-character context, uppercased. -/
def detectHttpMethod (content : String) (index : Nat) : String :=
  let contextStart := index - 100
  let contextEnd := min content.data.length (index + 100)
  let context := toLowerStr (sliceStr content contextStart contextEnd)
  match httpMethods.find? (fun m => containsStr context m) with
  | some m => toUpperStr m
  | none => "UNKNOWN"

/-- `detectHttpMethodFromLine(line)`. -/
def detectHttpMethodFromLine (line : String) : String :=
  let lowerLine := toLowerStr line
  match httpMethods.find? (fun m => containsStr lowerLine m) with
  | some m => toUpperStr m
  | none => "UNKNOWN"

/-- `getLineNumber(content, index)`: 1-based line of the match. -/
def getLineNumber (content : String) (index : Nat) : Nat :=
  (content.data.take index).count '\n' + 1

/-- `content.split('\n')`. -/
def splitLines : List Char → List (List Char)
  | [] => [[]]
  | c :: rest =>
      if c = '\n' then [] :: splitLines rest
      else
        match splitLines rest with
        | l :: ls => (c :: l) :: ls
        | [] => [[c]]

/-- `/\/v\d+/.test(endpoint)`. -/
def hasSlashVDigit : List Char → Bool
  | '/' :: 'v' :: d :: rest => isDigitChar d || hasSlashVDigit ('v' :: d :: rest)
  | _ :: rest => hasSlashVDigit rest
  | [] => false

/-- The `categoryScores` table of `calculateConfidence`. -/
def categoryScore : String → Nat
  | "urlPatterns" => 3
  | "httpMethodPatterns" => 4
  | "fetchPatterns" => 5
  | "routerPatterns" => 4
  | "websocketPatterns" => 5
  | "fullUrlPatterns" => 5
  | "configPatterns" => 3
  | "dynamicPatterns" => 4
  | "obfuscatedPatterns" => 3
  | "network_call" => 5
  | "network_call_resolved" => 5
  | "ast_literal" => 2
  | "template_literal" => 3
  | "template_literal_resolved" => 4
  | "string_concatenation" => 4
  | "variable_assignment" => 3
  | "line_analysis" => 1
  | _ => 1

/-- `calculateConfidence(endpoint, category, content, index)`. -/
def calculateConfidence (endpoint category : String) (content : String)
    (index : Nat) : Confidence :=
  let score := categoryScore category
    + (if startsWithStr endpoint "/api/" then 3 else 0)
    + (if startsWithStr endpoint "/v" && hasSlashVDigit endpoint.data
        then 2 else 0)
    + (if containsStr endpoint "graphql" then 2 else 0)
    + (if startsWithStr endpoint "http" then 2 else 0)
    + (if startsWithStr endpoint "ws" then 2 else 0)
    + (if containsStr endpoint "auth" then 1 else 0)
    + (if containsStr endpoint "user" then 1 else 0)
    + (if containsStr endpoint "admin" then 1 else 0)
  let context := toLowerStr (extractContext content index)
  let score := score
    + (if containsStr context "fetch" then 2 else 0)
    + (if containsStr context "axios" then 2 else 0)
    + (if containsStr context "ajax" then 2 else 0)
    + (if containsStr context "request" then 1 else 0)
    + (if containsStr context "url" then 1 else 0)
  if 8 ≤ score then Confidence.HIGH
  else if 4 ≤ score then Confidence.MEDIUM
  else Confidence.LOW

/-- A recorded variable (`this.variables` entries:
`{ type, value, line }`). -/
structure VarInfo where
  type : String
  value : String
  line : Nat
  deriving DecidableEq, Repr

/-- `this.variables`, a `Map` from identifier / member-path names. -/
abbrev VarMap := List (String × VarInfo)

/-- `this.variables.get(name)`. -/
def varGet (m : VarMap) (name : String) : Option VarInfo :=
  match m with
  | [] => none
  | (k, v) :: rest => if k = name then some v else varGet rest name

/-- `this.variables.set(name, info)`. -/
def varSet (m : VarMap) (name : String) (v : VarInfo) : VarMap :=
  match m with
  | [] => [(name, v)]
  | (k, v') :: rest =>
      if k = name then (name, v) :: rest else (k, v') :: varSet rest name v

/-- The esprima node shapes the extractor inspects.  `strValue` of a
literal is `some s` for string literals and `none` otherwise;
`range` abbreviates `node.range[0]` and `line` `node.loc.start.line`.
`other` stands for any further node kind, traversed only for its
children. -/
inductive JSNode where
  | literal (strValue : Option String) (range : Nat) (line : Nat)
  | identifier (name : String) (range : Nat) (line : Nat)
  | templateLiteral (quasis : List String) (exprs : List JSNode)
      (range : Nat) (line : Nat)
  | binary (op : String) (left right : JSNode) (range : Nat) (line : Nat)
  | member (obj : JSNode) (propName : Option String) (range : Nat)
      (line : Nat)
  | call (callee : JSNode) (args : List JSNode) (range : Nat) (line : Nat)
  | assign (left right : JSNode) (range : Nat) (line : Nat)
  | varDecl (decls : List (Option String × Option JSNode)) (range : Nat)
      (line : Nat)
  | other (children : List JSNode)
  deriving Repr

/-- `node.range[0]`. -/
def JSNode.rangeOf : JSNode → Nat
  | JSNode.literal _ r _ => r
  | JSNode.identifier _ r _ => r
  | JSNode.templateLiteral _ _ r _ => r
  | JSNode.binary _ _ _ r _ => r
  | JSNode.member _ _ r _ => r
  | JSNode.call _ _ r _ => r
  | JSNode.assign _ _ r _ => r
  | JSNode.varDecl _ r _ => r
  | JSNode.other _ => 0

/-- `node.loc.start.line`. -/
def JSNode.lineOf : JSNode → Nat
  | JSNode.literal _ _ l => l
  | JSNode.identifier _ _ l => l
  | JSNode.templateLiteral _ _ _ l => l
  | JSNode.binary _ _ _ _ l => l
  | JSNode.member _ _ _ l => l
  | JSNode.call _ _ _ l => l
  | JSNode.assign _ _ _ l => l
  | JSNode.varDecl _ _ l => l
  | JSNode.other _ => 0

/-- The member-path segments walked by `getMemberExpressionName`. -/
def memberParts : JSNode → List String
  | JSNode.member obj (some p) _ _ => memberParts obj ++ [p]
  | JSNode.member obj none _ _ => memberParts obj
  | JSNode.identifier n _ _ => [n]
  | _ => []

/-- `getMemberExpressionName(node)`: `config.api.url` etc. -/
def getMemberExpressionName (n : JSNode) : Option String :=
  match n with
  | JSNode.member _ _ _ _ =>
      let parts := memberParts n
      if parts.isEmpty then none else some (String.intercalate "." parts)
  | _ => none

/-- `reconstructTemplate(node)`: quasis joined with `${...}`
placeholders for every expression. -/
def reconstructTemplate (quasis : List String) (exprs : List JSNode) :
    String :=
  match quasis, exprs with
  | [], _ => ""
  | q :: qs, [] => q ++ reconstructTemplate qs []
  | q :: qs, _ :: es => q ++ "${...}" ++ reconstructTemplate qs es

mutual

/-- `resolveValue(node)`: literal, identifier, `+`-concatenation,
template literal or member path, resolved against `this.variables`. -/
def resolveValue (vars : VarMap) : JSNode → Option String
  | JSNode.literal v _ _ => v
  | JSNode.identifier n _ _ => (varGet vars n).map VarInfo.value
  | JSNode.binary op l rr rg ln =>
      if op = "+" then resolveBinaryExpression vars (JSNode.binary op l rr rg ln)
      else none
  | JSNode.templateLiteral qs es _ _ =>
      some (reconstructParts vars qs es)
  | JSNode.member obj p rg ln =>
      match getMemberExpressionName (JSNode.member obj p rg ln) with
      | some mn => (varGet vars mn).map VarInfo.value
      | none => none
  | _ => none

/-- `resolveBinaryExpression(node)`: resolve both sides of a `+`. -/
def resolveBinaryExpression (vars : VarMap) : JSNode → Option String
  | JSNode.binary op l rr _ _ =>
      if op = "+" then
        match resolveValue vars l, resolveValue vars rr with
        | some a, some b => some (a ++ b)
        | _, _ => none
      else none
  | _ => none

/-- The loop of `reconstructTemplateWithVariables`: an unresolved (or
falsy) expression becomes the `${...}` placeholder. -/
def reconstructParts (vars : VarMap) : List String → List JSNode → String
  | [], _ => ""
  | q :: qs, [] => q ++ reconstructParts vars qs []
  | q :: qs, e :: es =>
      q ++ (match resolveValue vars e with
        | some s => if s = "" then "${...}" else s
        | none => "${...}") ++ reconstructParts vars qs es

end

/-- `reconstructTemplateWithVariables(node)`. -/
def reconstructTemplateWithVariables (vars : VarMap) (quasis : List String)
    (exprs : List JSNode) : String :=
  reconstructParts vars quasis exprs

/-- What `collectVariables` records for one node before recursing. -/
def collectOwn (vars : VarMap) : JSNode → VarMap
  | JSNode.varDecl decls _ ln =>
      decls.foldl (fun vs decl =>
        match decl with
        | (some name, some (JSNode.literal (some v) _ _)) =>
            varSet vs name { type := "literal", value := v, line := ln }
        | (some name, some (JSNode.templateLiteral qs es _ _)) =>
            let templateValue := reconstructTemplate qs es
            if templateValue = "" then vs
            else varSet vs name
              { type := "template", value := templateValue, line := ln }
        | (some name, some (JSNode.binary "+" l rr rg ln2)) =>
            match resolveBinaryExpression vs (JSNode.binary "+" l rr rg ln2) with
            | some concatenated =>
                if concatenated = "" then vs
                else varSet vs name
                  { type := "concatenation", value := concatenated,
                    line := ln }
            | none => vs
        | _ => vs) vars
  | JSNode.assign left right _ ln =>
      match getMemberExpressionName left with
      | some propertyName =>
          match right with
          | JSNode.literal (some v) _ _ =>
              varSet vars propertyName
                { type := "property", value := v, line := ln }
          | _ => vars
      | none => vars
  | _ => vars

mutual

/-- First AST pass (`collectVariables`): record this node's
assignments, then recurse into every child (`for (const key in node)`,
in field order). -/
def collectVariables (vars : VarMap) : JSNode → VarMap
  | JSNode.literal _ _ _ => vars
  | JSNode.identifier _ _ _ => vars
  | JSNode.templateLiteral _ es _ _ => collectVariablesList vars es
  | JSNode.binary _ l rr _ _ =>
      collectVariables (collectVariables vars l) rr
  | JSNode.member obj _ _ _ => collectVariables vars obj
  | JSNode.call callee args _ _ =>
      collectVariablesList (collectVariables vars callee) args
  | JSNode.assign l rr rg ln =>
      let vars1 := collectOwn vars (JSNode.assign l rr rg ln)
      collectVariables (collectVariables vars1 l) rr
  | JSNode.varDecl decls rg ln =>
      let vars1 := collectOwn vars (JSNode.varDecl decls rg ln)
      collectDecls vars1 decls
  | JSNode.other cs => collectVariablesList vars cs

/-- `collectVariables` over the declarators' initializers. -/
def collectDecls (vars : VarMap) :
    List (Option String × Option JSNode) → VarMap
  | [] => vars
  | (_, some init) :: rest => collectDecls (collectVariables vars init) rest
  | (_, none) :: rest => collectDecls vars rest

/-- `collectVariables` over a child list, left to right. -/
def collectVariablesList (vars : VarMap) : List JSNode → VarMap
  | [] => vars
  | c :: cs => collectVariablesList (collectVariables vars c) cs

end

/-- `endpoints.has(key) ? nothing : endpoints.set(key, ep)`. -/
def addEndpoint (m : EndpointMap) (key : String) (ep : Endpoint) :
    EndpointMap :=
  match m.get key with
  | some _ => m
  | none => m.set key ep

/-- `extractFromCallExpression(node, …)`. -/
def extractFromCallExpression (vars : VarMap) (content fileUrl : String)
    (m : EndpointMap) (callee : JSNode) (args : List JSNode) :
    EndpointMap :=
  let methodName :=
    match callee with
    | JSNode.member _ (some p) _ _ => p
    | JSNode.member _ none _ _ => ""
    | JSNode.identifier n _ _ => n
    | _ => ""
  let networkMethods := ["fetch", "get", "post", "put", "patch", "delete",
    "head", "options", "ajax"]
  if networkMethods.contains (toLowerStr methodName) then
    match args with
    | [] => m
    | firstArg :: _ =>
        let m1 :=
          match resolveValue vars firstArg with
          | some endpoint =>
              if endpoint ≠ "" && isValidEndpointStr endpoint then
                addEndpoint m (endpoint ++ "_" ++ methodName ++ "_resolved")
                  { url := endpoint, source := fileUrl,
                    method := toUpperStr methodName,
                    category := "network_call_resolved",
                    confidence := Confidence.HIGH,
                    context := extractContext content firstArg.rangeOf,
                    line := firstArg.lineOf, extractionMethod := "ast" }
              else m
          | none => m
        match firstArg with
        | JSNode.literal (some v) _ _ =>
            let directEndpoint := cleanEndpointStr v
            if isValidEndpointStr directEndpoint then
              addEndpoint m1
                (directEndpoint ++ "_" ++ methodName ++ "_literal")
                { url := directEndpoint, source := fileUrl,
                  method := toUpperStr methodName,
                  category := "network_call",
                  confidence := Confidence.HIGH,
                  context := extractContext content firstArg.rangeOf,
                  line := firstArg.lineOf, extractionMethod := "ast" }
            else m1
        | _ => m1
  else m

/-- What `traverseAST` contributes for one node before recursing. -/
def traverseOwn (vars : VarMap) (content fileUrl : String)
    (m : EndpointMap) : JSNode → EndpointMap
  | JSNode.literal (some v) rg ln =>
      let endpoint := cleanEndpointStr v
      if isValidEndpointStr endpoint then
        addEndpoint m (endpoint ++ "_ast_literal")
          { url := endpoint, source := fileUrl, method := "UNKNOWN",
            category := "ast_literal",
            confidence := calculateConfidence endpoint "ast_literal"
              content rg,
            context := extractContext content rg, line := ln,
            extractionMethod := "ast" }
      else m
  | JSNode.templateLiteral qs es rg ln =>
      let templateValue := reconstructTemplateWithVariables vars qs es
      if templateValue ≠ "" && isValidEndpointStr templateValue then
        addEndpoint m (templateValue ++ "_template")
          { url := templateValue, source := fileUrl, method := "UNKNOWN",
            category := "template_literal_resolved",
            confidence := calculateConfidence templateValue
              "template_literal_resolved" content rg,
            context := extractContext content rg, line := ln,
            extractionMethod := "ast" }
      else m
  | JSNode.binary "+" l rr rg ln =>
      match resolveBinaryExpression vars (JSNode.binary "+" l rr rg ln) with
      | some concatenated =>
          if concatenated ≠ "" && isValidEndpointStr concatenated then
            addEndpoint m (concatenated ++ "_concatenation")
              { url := concatenated, source := fileUrl,
                method := "UNKNOWN", category := "string_concatenation",
                confidence := calculateConfidence concatenated
                  "string_concatenation" content rg,
                context := extractContext content rg, line := ln,
                extractionMethod := "ast" }
          else m
      | none => m
  | JSNode.call callee args _ _ =>
      extractFromCallExpression vars content fileUrl m callee args
  | JSNode.assign left right rg ln =>
      let m1 :=
        match resolveValue vars right with
        | some resolved =>
            if resolved ≠ "" && isValidEndpointStr resolved then
              addEndpoint m (resolved ++ "_assignment")
                { url := resolved, source := fileUrl, method := "UNKNOWN",
                  category := "variable_assignment",
                  confidence := calculateConfidence resolved
                    "variable_assignment" content rg,
                  context := extractContext content rg, line := ln,
                  extractionMethod := "ast" }
            else m
        | none => m
      let _ := left
      m1
  | _ => m

mutual

/-- Second AST pass (`traverseAST`): record this node's endpoints, then
recurse into every child in field order. -/
def traverseAST (vars : VarMap) (content fileUrl : String)
    (m : EndpointMap) : JSNode → EndpointMap
  | JSNode.literal v rg ln =>
      traverseOwn vars content fileUrl m (JSNode.literal v rg ln)
  | JSNode.identifier _ _ _ => m
  | JSNode.templateLiteral qs es rg ln =>
      traverseASTList vars content fileUrl
        (traverseOwn vars content fileUrl m
          (JSNode.templateLiteral qs es rg ln)) es
  | JSNode.binary op l rr rg ln =>
      let m1 := traverseOwn vars content fileUrl m
        (JSNode.binary op l rr rg ln)
      traverseAST vars content fileUrl
        (traverseAST vars content fileUrl m1 l) rr
  | JSNode.member obj _ _ _ => traverseAST vars content fileUrl m obj
  | JSNode.call callee args rg ln =>
      let m1 := traverseOwn vars content fileUrl m
        (JSNode.call callee args rg ln)
      traverseASTList vars content fileUrl
        (traverseAST vars content fileUrl m1 callee) args
  | JSNode.assign l rr rg ln =>
      let m1 := traverseOwn vars content fileUrl m
        (JSNode.assign l rr rg ln)
      traverseAST vars content fileUrl
        (traverseAST vars content fileUrl m1 l) rr
  | JSNode.varDecl decls _ _ =>
      traverseDecls vars content fileUrl m decls
  | JSNode.other cs => traverseASTList vars content fileUrl m cs

/-- `traverseAST` over the declarators' initializers. -/
def traverseDecls (vars : VarMap) (content fileUrl : String)
    (m : EndpointMap) : List (Option String × Option JSNode) → EndpointMap
  | [] => m
  | (_, some init) :: rest =>
      traverseDecls vars content fileUrl
        (traverseAST vars content fileUrl m init) rest
  | (_, none) :: rest => traverseDecls vars content fileUrl m rest

/-- `traverseAST` over a child list, left to right. -/
def traverseASTList (vars : VarMap) (content fileUrl : String)
    (m : EndpointMap) : List JSNode → EndpointMap
  | [] => m
  | c :: cs =>
      traverseASTList vars content fileUrl
        (traverseAST vars content fileUrl m c) cs

end

/-- One match of the fixed regex catalog on the content: its category,
`matches[0]`, the capture groups `matches[1…]`, and `matches.index`. -/
structure RegexMatch where
  category : String
  matched : String
  groups : List (Option String)
  index : Nat
  deriving Repr

/-- `matches[i+1] || ''`. -/
def groupOrEmpty (rm : RegexMatch) (i : Nat) : String :=
  match rm.groups.getD i none with
  | some s => s
  | none => ""

/-- The body of the `while ((matches = globalPattern.exec(content)))`
loop of `extractWithRegex`. -/
def regexStep (content fileUrl : String) (m : EndpointMap)
    (rm : RegexMatch) : EndpointMap :=
  let endpoint : Option String :=
    if rm.category = "dynamicPatterns" ∧ 2 ≤ rm.groups.length then
      let part1 := cleanEndpointStr (groupOrEmpty rm 0)
      let part2 := cleanEndpointStr (groupOrEmpty rm 1)
      if part1 ≠ "" && part2 ≠ "" then some (part1 ++ part2) else none
    else if rm.category = "obfuscatedPatterns" ∧ 2 ≤ rm.groups.length then
      let part1 := cleanEndpointStr (groupOrEmpty rm 0)
      let part2 := cleanEndpointStr (groupOrEmpty rm 1)
      if part1 ≠ "" && part2 ≠ "" then
        let combined := part1 ++ part2
        if isValidEndpointStr combined then some combined
        else if isValidEndpointStr part1 then some part1
        else if isValidEndpointStr part2 then some part2
        else none
      else none
    else
      some (cleanEndpointStr (match rm.groups.getD 0 none with
        | some s => if s = "" then rm.matched else s
        | none => rm.matched))
  match endpoint with
  | some ep =>
      if ep ≠ "" && isValidEndpointStr ep then
        addEndpoint m (ep ++ "_" ++ rm.category ++ "_" ++ toString rm.index)
          { url := ep, source := fileUrl,
            method := detectHttpMethod content rm.index,
            category := rm.category,
            confidence := calculateConfidence ep rm.category content
              rm.index,
            context := extractContext content rm.index,
            line := getLineNumber content rm.index,
            extractionMethod := "regex" }
      else m
  | none => m

/-- `extractWithRegex(content, fileUrl, endpoints)`: fold the catalog's
match stream (category by category, in position order) into the map. -/
def extractWithRegex (content fileUrl : String)
    (ms : List RegexMatch) (m : EndpointMap) : EndpointMap :=
  ms.foldl (regexStep content fileUrl) m

/-- The `lines.forEach((line, index) => …)` of
`extractWithLineAnalysis`:  `lineMatches` carries, per line index, the
strings the three line regexes capture on that trimmed line. -/
def lineAnalysisGo (fileUrl : String) (lineMatches : List (Nat × String))
    (m : EndpointMap) : List String → Nat → EndpointMap
  | [], _ => m
  | line :: rest, index =>
      let trimmedLine := jsTrimStr line
      let m1 :=
        if startsWithStr trimmedLine "//" || startsWithStr trimmedLine "/*"
            || trimmedLine = "" then m
        else
          (lineMatches.filter (fun p => p.1 = index)).foldl (fun acc p =>
            let endpoint := cleanEndpointStr p.2
            if isValidEndpointStr endpoint then
              addEndpoint acc (endpoint ++ "_line_" ++ toString index)
                { url := endpoint, source := fileUrl,
                  method := detectHttpMethodFromLine trimmedLine,
                  category := "line_analysis",
                  confidence := calculateConfidence endpoint
                    "line_analysis" trimmedLine 0,
                  context := trimmedLine, line := index + 1,
                  extractionMethod := "line_analysis" }
            else acc) m
      lineAnalysisGo fileUrl lineMatches m1 rest (index + 1)

/-- `extractWithLineAnalysis(lines, fileUrl, endpoints)`. -/
def extractWithLineAnalysis (fileUrl : String) (lines : List String)
    (lineMatches : List (Nat × String)) (m : EndpointMap) : EndpointMap :=
  lineAnalysisGo fileUrl lineMatches m lines 0

/-- The `EndpointExtractor` instance state: the constructor's (unused)
`this.endpoints` set and the resolution table `this.variables`, which
persists across calls and is cleared at the start of each AST pass. -/
structure ExtractorState where
  endpoints : List String
  vars : VarMap

/-- One file's content as the extractor sees it: the raw text, plus the
results of the external machinery, each a deterministic function of the
raw bytes — the regex catalog's match stream, the line regexes' captures
per line, and the esprima parse (`none` when parsing threw, which
degrades to the other passes). -/
structure JSContent where
  raw : String
  regexMatches : List RegexMatch
  lineMatches : List (Nat × String)
  ast : Option JSNode

/-- `extractWithAST(content, fileUrl, endpoints)`: on parse success,
clear `this.variables`, collect, traverse; on failure leave everything
untouched. -/
def extractWithAST (st : ExtractorState) (content : JSContent)
    (fileUrl : String) (m : EndpointMap) : EndpointMap × ExtractorState :=
  match content.ast with
  | none => (m, st)
  | some ast =>
      let vars1 := collectVariables ([] : VarMap) ast
      (traverseAST vars1 content.raw fileUrl m ast,
        { st with vars := vars1 })

/-- `extractEndpoints(content, fileUrl)`: the three passes feed one
key-addressed map, whose values are deduplicated by url. -/
def extractEndpoints (st : ExtractorState) (content : JSContent)
    (fileUrl : String) : List Endpoint × ExtractorState :=
  let lines := (splitLines content.raw.data).map String.mk
  let m1 := extractWithRegex content.raw fileUrl content.regexMatches []
  let m2 := (extractWithAST st content fileUrl m1).1
  let m3 := extractWithLineAnalysis fileUrl lines content.lineMatches m2
  (deduplicateEndpoints (m3.map Prod.snd),
    (extractWithAST st content fileUrl m1).2)

lemma extractWithAST_fst_congr (st1 st2 : ExtractorState)
    (c : JSContent) (u : String) (m : EndpointMap) :
    (extractWithAST st1 c u m).1 = (extractWithAST st2 c u m).1 := by
  unfold extractWithAST
  cases c.ast <;> rfl

/-- C3: extraction is a function of the content alone — the endpoint
list does not depend on the extractor state left behind by earlier
calls (the resolution table is cleared before use), so running
`extractEndpoints` twice on identical content yields an identical
endpoint list: the same urls with the same confidence buckets, in the
same order. -/
theorem extractEndpoints_idempotent (st st1 st2 : ExtractorState)
    (content : JSContent) (fileUrl : String) :
    (extractEndpoints st1 content fileUrl).1 =
      (extractEndpoints st2 content fileUrl).1 ∧
    (extractEndpoints (extractEndpoints st content fileUrl).2
        content fileUrl).1 =
      (extractEndpoints st content fileUrl).1 := by
  have key : ∀ s1 s2 : ExtractorState,
      (extractEndpoints s1 content fileUrl).1 =
        (extractEndpoints s2 content fileUrl).1 := by
    intro s1 s2
    simp only [extractEndpoints]
    rw [extractWithAST_fst_congr s1 s2]
  exact ⟨key st1 st2, key _ st⟩

end WebMonner
